import Mathlib

/-!
# Verification of the limit-order-book matching core

A shallow embedding of the C++ limit-order-book simulator
(`src/cpp/src/LimitBook.cpp`, `src/cpp/include/lob/*.h`, the SPSC ring buffer
and the matching-engine façade), together with proofs of the specification
claims about it.

Prices are `Int` (the C++ `Price` struct wraps an `int64_t` tick count);
quantities, ids and timestamps are `Nat` (C++ `uint64_t`; none of the verified
operations can overflow 64 bits under the claims' hypotheses, and all
arithmetic performed on them here is subtraction bounded by `min` or addition
of quantities, matching the source).  The two `std::map` halves of the book
are embedded as association lists kept in the comparator's iteration order
(bids descending, asks ascending), and the `std::unordered_map` order index
as an association list with unique keys.
-/

namespace LOB

/-- `Side.h`: side of an order. -/
inductive Side : Type
  | Buy
  | Sell
deriving DecidableEq, Repr

/-- `Side.h`: `opposite`. -/
def opposite : Side → Side
  | Side.Buy => Side.Sell
  | Side.Sell => Side.Buy

/-- `Order.h`: order type tag. -/
inductive OrderType : Type
  | Limit
  | Market
  | IOC
  | FOK
deriving DecidableEq, Repr

/-- `Order.h`: the immutable input order record.  The iceberg / pegging
metadata fields are carried through the core unchanged and never read by any
verified operation, so they are omitted from the embedding. -/
structure Order : Type where
  id : Nat
  side : Side
  price : Int
  qty : Nat
  ts : Nat
  type : OrderType
deriving DecidableEq, Repr

namespace Order

/-- `Order.h`: `is_market`. -/
def is_market (o : Order) : Bool := o.type = OrderType.Market

/-- `Order.h`: `is_limit`. -/
def is_limit (o : Order) : Bool := o.type = OrderType.Limit

/-- `Order.h`: `is_ioc`. -/
def is_ioc (o : Order) : Bool := o.type = OrderType.IOC

/-- `Order.h`: `is_fok`. -/
def is_fok (o : Order) : Bool := o.type = OrderType.FOK

end Order

/-- `BookLevel.h`: a resting slot — copy of the original order plus its
mutable remaining quantity. -/
structure BookOrder : Type where
  order : Order
  remaining_qty : Nat
deriving DecidableEq, Repr

/-- `BookLevel.h`: `BookOrder(const Order&)` — remaining starts at `qty`. -/
def mkBookOrder (o : Order) : BookOrder := ⟨o, o.qty⟩

/-- `BookLevel.h`: a price level: FIFO queue of slots plus cached aggregate
quantity. -/
structure BookLevel : Type where
  orders : List BookOrder
  total_qty : Nat
deriving DecidableEq, Repr

namespace BookLevel

/-- `BookLevel()` default constructor: empty queue, zero aggregate. -/
def emptyLevel : BookLevel := ⟨[], 0⟩

/-- `BookLevel::add_order`: push to the back of the queue. -/
def add_order (l : BookLevel) (bo : BookOrder) : BookLevel :=
  ⟨l.orders ++ [bo], l.total_qty + bo.remaining_qty⟩

/-- `BookLevel::front`: first order in the queue, if any. -/
def front (l : BookLevel) : Option BookOrder := l.orders.head?

/-- `BookLevel::pop_front`: drop the first order, subtracting its
remaining quantity from the aggregate. -/
def pop_front (l : BookLevel) : BookLevel :=
  match l.orders with
  | [] => l
  | bo :: rest => ⟨rest, l.total_qty - bo.remaining_qty⟩

/-- Queue traversal of `BookLevel::remove_order`: erase the first slot with
the given id, returning the shortened queue and the erased slot's remaining
quantity. -/
def removeFromQueue (id : Nat) : List BookOrder → Option (List BookOrder × Nat)
  | [] => none
  | bo :: rest =>
    if bo.order.id = id then some (rest, bo.remaining_qty)
    else
      match removeFromQueue id rest with
      | none => none
      | some (q, n) => some (bo :: q, n)

/-- `BookLevel::remove_order`: erase the first slot with the given id,
subtracting its remaining quantity from the aggregate and returning it (the
C++ out-parameter; `none` when the id is absent, in which case the C++
leaves `removed_qty` untouched at 0 and the level unchanged). -/
def remove_order (l : BookLevel) (id : Nat) : Option (BookLevel × Nat) :=
  match removeFromQueue id l.orders with
  | none => none
  | some (q, n) => some (⟨q, l.total_qty - n⟩, n)

/-- `BookLevel::find_order`: first slot with the given id. -/
def find_order (l : BookLevel) (id : Nat) : Option BookOrder :=
  l.orders.find? (fun bo => bo.order.id = id)

/-- `BookLevel::update_front_qty`: overwrite the front slot's remaining
quantity, adjusting the aggregate by the delta. -/
def update_front_qty (l : BookLevel) (new_qty : Nat) : BookLevel :=
  match l.orders with
  | [] => l
  | bo :: rest =>
    ⟨{ bo with remaining_qty := new_qty } :: rest,
      l.total_qty - bo.remaining_qty + new_qty⟩

/-- `BookLevel::empty`. -/
def isEmpty (l : BookLevel) : Bool := l.orders.isEmpty

end BookLevel

/-- One side of the book: `std::map<Price, BookLevel, Cmp>` embedded as an
association list in the comparator's iteration order (bids use
`std::greater` so the list is descending, asks `std::less` so ascending). -/
abbrev HalfBook : Type := List (Int × BookLevel)

/-- `map::find` on a book side. -/
def hbFind (hb : HalfBook) (p : Int) : Option BookLevel :=
  match hb with
  | [] => none
  | (q, l) :: rest => if p = q then some l else hbFind rest p

/-- `bids_[price].add_order(bo)` / `asks_[price].add_order(bo)`:
`operator[]` default-constructs the level if absent (at its sorted position,
determined by the comparator `before`) and then appends the slot. -/
def hbAddOrder (before : Int → Int → Bool) (hb : HalfBook) (p : Int)
    (bo : BookOrder) : HalfBook :=
  match hb with
  | [] => [(p, BookLevel.emptyLevel.add_order bo)]
  | (q, l) :: rest =>
    if p = q then (q, l.add_order bo) :: rest
    else if before p q then
      (p, BookLevel.emptyLevel.add_order bo) :: (q, l) :: rest
    else (q, l) :: hbAddOrder before rest p bo

/-- `map::erase(key)` on a book side. -/
def hbErase (hb : HalfBook) (p : Int) : HalfBook :=
  match hb with
  | [] => []
  | (q, l) :: rest => if p = q then rest else (q, l) :: hbErase rest p

/-- Price keys of a book side, in iteration order. -/
def hbKeys (hb : HalfBook) : List Int := hb.map Prod.fst

/-- Total number of resting slots on one side (termination measure for the
matching loop). -/
def countOrders (hb : HalfBook) : Nat :=
  (hb.map (fun pl => pl.2.orders.length)).sum

/-- `LimitBook.h`: entry of the `order_index_` unordered map. -/
structure OrderLocation : Type where
  side : Side
  price : Int
deriving DecidableEq, Repr

/-- `order_index_`: `std::unordered_map<OrderId, OrderLocation>` embedded as
an association list with unique keys. -/
abbrev OrderIndex : Type := List (Nat × OrderLocation)

/-- `order_index_.find(id)`. -/
def idxFind (idx : OrderIndex) (id : Nat) : Option OrderLocation :=
  match idx with
  | [] => none
  | (k, loc) :: rest => if id = k then some loc else idxFind rest id

/-- `order_index_[id] = loc`: assign through `operator[]` — overwrite the
existing binding or insert a fresh one. -/
def idxInsert (idx : OrderIndex) (id : Nat) (loc : OrderLocation) : OrderIndex :=
  match idx with
  | [] => [(id, loc)]
  | (k, l) :: rest =>
    if id = k then (k, loc) :: rest else (k, l) :: idxInsert rest id loc

/-- `order_index_.erase(id)`: remove the binding (first occurrence; the map
has unique keys). -/
def idxErase (idx : OrderIndex) (id : Nat) : OrderIndex :=
  match idx with
  | [] => []
  | (k, l) :: rest => if id = k then rest else (k, l) :: idxErase rest id

/-- `Events.h`: `TradeEvent` (the discriminant tag is implicit in the type). -/
structure TradeEvent : Type where
  taker_id : Nat
  maker_id : Nat
  price : Int
  qty : Nat
  ts : Nat
deriving DecidableEq, Repr

/-- `LimitBook.h`: the book — descending bid map, ascending ask map, and the
id → (side, price) index. The `tick_size_` member is never read by the
verified operations and is omitted. -/
structure Book : Type where
  bids : HalfBook
  asks : HalfBook
  order_index : OrderIndex
deriving DecidableEq, Repr

/-- A freshly constructed `LimitBook`. -/
def emptyBook : Book := ⟨[], [], []⟩

/-- `INVALID_PRICE` sentinel (`Price{-1}`). -/
def INVALID_PRICE : Int := -1

namespace Book

/-- `LimitBook::best_price`: head key of the side's map, or the sentinel. -/
def best_price (b : Book) (s : Side) : Int :=
  match s with
  | Side.Buy =>
    match b.bids with
    | [] => INVALID_PRICE
    | (p, _) :: _ => p
  | Side.Sell =>
    match b.asks with
    | [] => INVALID_PRICE
    | (p, _) :: _ => p

/-- `LimitBook::would_cross`. -/
def would_cross (b : Book) (o : Order) : Bool :=
  if o.is_market then true
  else
    let best_opposite := b.best_price (opposite o.side)
    if best_opposite = INVALID_PRICE then false
    else
      match o.side with
      | Side.Buy => o.price ≥ best_opposite
      | Side.Sell => o.price ≤ best_opposite

end Book

/-- The price test that breaks the matching loop (and the FOK pre-scan) for a
non-market aggressor: a buy stops at an ask strictly above its limit, a sell
at a bid strictly below (`LimitBook.cpp` lines 28/39/95/145). -/
def priceBreaks (o : Order) (levelPrice : Int) : Bool :=
  match o.side with
  | Side.Buy => levelPrice > o.price
  | Side.Sell => levelPrice < o.price

/-- The FOK pre-scan (`LimitBook::add`, lines 24-48): walk the opposite side
in iteration order accumulating level `total_qty`, stopping at the first
price that fails the cross test or as soon as the sum reaches `o.qty`. -/
def available_scan (o : Order) (hb : HalfBook) (acc : Nat) : Nat :=
  match hb with
  | [] => acc
  | (p, l) :: rest =>
    if priceBreaks o p && !o.is_market then acc
    else
      let acc' := acc + l.total_qty
      if acc' ≥ o.qty then acc' else available_scan o rest acc'

/-- The matching loop (`LimitBook::match_order`, one of the two symmetric
side-specific loops, selected by `o.side` through `priceBreaks`): while the
aggressor has quantity and the opposite side is non-empty and the head price
satisfies the cross test, fill against the head level's front slot, emitting
a trade at the resting price; fully filled makers are popped and their id
erased from the index (erasing the level when it empties), partially filled
makers have their front quantity updated.  Returns the updated aggressor,
opposite side, index and the trade list (trades appended in order).

Each iteration of the C++ `while` loop strictly decreases
`o.qty + countOrders hb` (a popped maker removes a slot; a partially filled
maker zeroes the aggressor), so the loop terminates; the explicit `fuel`
argument — initialized by the callers to that measure plus one, which
`matchLoop_fuel_irrelevant` proves sufficient — makes the recursion
structural and the definition executable. -/
def matchLoop :
    Nat → Order → HalfBook → OrderIndex → Nat → List TradeEvent →
    Order × HalfBook × OrderIndex × List TradeEvent
  | 0, o, hb, idx, _, acc => (o, hb, idx, acc)
  | _ + 1, o, [], idx, _, acc => (o, [], idx, acc)
  | fuel + 1, o, (price, level) :: rest, idx, now, acc =>
    if o.qty = 0 then (o, (price, level) :: rest, idx, acc)
    else if !o.is_market && priceBreaks o price then
      (o, (price, level) :: rest, idx, acc)
    else
      match level.front with
      | none => (o, (price, level) :: rest, idx, acc)
      | some maker =>
        if maker.remaining_qty - min o.qty maker.remaining_qty = 0 then
          matchLoop fuel
            { o with qty := o.qty - min o.qty maker.remaining_qty }
            (if level.pop_front.isEmpty then rest
             else (price, level.pop_front) :: rest)
            (idxErase idx maker.order.id) now
            (acc ++ [⟨o.id, maker.order.id, price,
                      min o.qty maker.remaining_qty, now⟩])
        else
          matchLoop fuel
            { o with qty := o.qty - min o.qty maker.remaining_qty }
            ((price,
              level.update_front_qty
                (maker.remaining_qty - min o.qty maker.remaining_qty)) :: rest)
            idx now
            (acc ++ [⟨o.id, maker.order.id, price,
                      min o.qty maker.remaining_qty, now⟩])

/-- Comparator of the bid map (`std::greater<Price>`): `a` is iterated
before `b` iff `a > b` (descending). -/
def bidBefore (a b : Int) : Bool := a > b

/-- Comparator of the ask map (`std::less<Price>`): ascending. -/
def askBefore (a b : Int) : Bool := a < b

/-- `map::operator[]` write-back of a mutated level (the C++ mutates the
level in place through the iterator): replace the value stored at `p`. -/
def hbUpdate (hb : HalfBook) (p : Int) (l : BookLevel) : HalfBook :=
  match hb with
  | [] => []
  | (q, l₀) :: rest =>
    if p = q then (q, l) :: rest else (q, l₀) :: hbUpdate rest p l

namespace Book

/-- `LimitBook::match_order`: dispatch on the aggressor's side — a buy
matches against the asks, a sell against the bids — and write the loop's
results back into the book.  The fuel passed to the loop is one more than
its termination measure, which is always enough (`matchLoop_fuel_irrelevant`). -/
def match_order (b : Book) (o : Order) (now : Nat) (acc : List TradeEvent) :
    Order × Book × List TradeEvent :=
  match o.side with
  | Side.Buy =>
    let r := matchLoop (o.qty + countOrders b.asks + 1) o b.asks
      b.order_index now acc
    (r.1, { b with asks := r.2.1, order_index := r.2.2.1 }, r.2.2.2)
  | Side.Sell =>
    let r := matchLoop (o.qty + countOrders b.bids + 1) o b.bids
      b.order_index now acc
    (r.1, { b with bids := r.2.1, order_index := r.2.2.1 }, r.2.2.2)

/-- `LimitBook::add_resting_order`: append a fresh slot to the back of the
level at the order's price on its own side (creating the level if absent)
and record the order's location in the index. -/
def add_resting_order (b : Book) (o : Order) : Book :=
  let bo := mkBookOrder o
  let b' : Book :=
    match o.side with
    | Side.Buy => { b with bids := hbAddOrder bidBefore b.bids o.price bo }
    | Side.Sell => { b with asks := hbAddOrder askBefore b.asks o.price bo }
  { b' with order_index := idxInsert b'.order_index o.id ⟨o.side, o.price⟩ }

/-- The FOK pre-scan over the opposite side (`LimitBook::add` lines 24-48). -/
def available_qty (b : Book) (o : Order) : Nat :=
  match o.side with
  | Side.Buy => available_scan o b.asks 0
  | Side.Sell => available_scan o b.bids 0

/-- `LimitBook::add` lines 68-82: the limit phase — match if the order would
cross, then rest any positive residual when the order is a plain limit. -/
def rest_phase (b : Book) (o : Order) (now : Nat) (acc : List TradeEvent) :
    Book × List TradeEvent :=
  let r := if b.would_cross o then b.match_order o now acc else (o, b, acc)
  let b2 := if r.1.qty > 0 && r.1.is_limit then r.2.1.add_resting_order r.1
            else r.2.1
  (b2, r.2.2)

/-- `LimitBook::add`: duplicate-id check, FOK pre-scan, aggressive phase for
market/IOC/FOK (which never reach the resting phase unless a market order
retains quantity), then the limit phase.  Returns the C++ `bool` outcome,
the resulting book, and the emitted trades. -/
def add (b : Book) (o : Order) (now : Nat) : Bool × Book × List TradeEvent :=
  if (idxFind b.order_index o.id).isSome then (false, b, [])
  else if o.is_market || o.is_ioc || o.is_fok then
    if o.is_fok && decide (b.available_qty o < o.qty) then (false, b, [])
    else
      let r := b.match_order o now []
      if r.1.qty = 0 || r.1.is_ioc || r.1.is_fok then (true, r.2.1, r.2.2)
      else
        let r2 := r.2.1.rest_phase r.1 now r.2.2
        (true, r2.1, r2.2)
  else
    let r2 := b.rest_phase o now []
    (true, r2.1, r2.2)

/-- `LimitBook::cancel` lines 212-229 (one of the two symmetric per-side
blocks): find the level at the recorded price, remove the slot by id
(removal failure leaves the level unchanged and the out-quantity at 0), and
erase the level if it ended up empty. -/
def removeSlotFromHalf (hb : HalfBook) (p : Int) (id : Nat) :
    HalfBook × Nat :=
  match hbFind hb p with
  | none => (hb, 0)
  | some level =>
    match level.remove_order id with
    | none => (if level.isEmpty then hbErase hb p else hb, 0)
    | some (level', q) =>
      (if level'.isEmpty then hbErase hb p else hbUpdate hb p level', q)

/-- `LimitBook::cancel`: unknown ids fail without effect; otherwise remove
the slot from its side, erase the id from the index, and report the
cancelled remaining quantity. -/
def cancel (b : Book) (id : Nat) : Bool × Book × Nat :=
  match idxFind b.order_index id with
  | none => (false, b, 0)
  | some loc =>
    let b1 : Book × Nat :=
      match loc.side with
      | Side.Buy =>
        let r := removeSlotFromHalf b.bids loc.price id
        ({ b with bids := r.1 }, r.2)
      | Side.Sell =>
        let r := removeSlotFromHalf b.asks loc.price id
        ({ b with asks := r.1 }, r.2)
    (true, { b1.1 with order_index := idxErase b1.1.order_index id }, b1.2)

/-- `LimitBook::replace`: look the order up, snapshot its remaining
quantity, cancel it, and feed a new order with the same id/side/type and the
new price/quantity (timestamped afresh) through admission.  The fate of the
call is the fate of the admission; on admission failure the original order
is lost (documented limitation). -/
def replace (b : Book) (id : Nat) (new_price : Int) (new_qty : Nat)
    (now : Nat) : Bool × Book × List TradeEvent :=
  match idxFind b.order_index id with
  | none => (false, b, [])
  | some loc =>
    let found : Option BookOrder :=
      match loc.side with
      | Side.Buy => (hbFind b.bids loc.price).bind (fun l => l.find_order id)
      | Side.Sell => (hbFind b.asks loc.price).bind (fun l => l.find_order id)
    match found with
    | none => (false, b, [])
    | some book_order =>
      let original : Order :=
        { book_order.order with qty := book_order.remaining_qty }
      let c := b.cancel id
      if c.1 = false then (false, c.2.1, [])
      else
        let new_order : Order :=
          { original with price := new_price, qty := new_qty, ts := now }
        c.2.1.add new_order now

/-- Best bid price, when the bid side is non-empty. -/
def bestBid? (b : Book) : Option Int := b.bids.head?.map Prod.fst

/-- Best ask price, when the ask side is non-empty. -/
def bestAsk? (b : Book) : Option Int := b.asks.head?.map Prod.fst

end Book

/-- Spec §8 invariant 3: `best_bid < best_ask` whenever both sides are
non-empty. -/
def NotCrossed (b : Book) : Prop :=
  ∀ pb pa, b.bestBid? = some pb → b.bestAsk? = some pa → pb < pa

instance (b : Book) : Decidable (NotCrossed b) :=
  match hb : b.bestBid?, ha : b.bestAsk? with
  | some pb, some pa =>
    decidable_of_iff (pb < pa) (by
      constructor
      · intro h x y hx hy
        rw [hb] at hx
        rw [ha] at hy
        cases hx
        cases hy
        exact h
      · intro h
        exact h pb pa hb ha)
  | some _, none =>
    isTrue (by
      intro x y hx hy
      rw [ha] at hy
      cases hy)
  | none, _ =>
    isTrue (by
      intro x y hx hy
      rw [hb] at hx
      cases hx)

/-! ## The SPSC ring buffer (`RingBuffer.h`) and engine façade
(`MatchingEngine.h` / second half of `LimitBook.cpp`). -/

/-- `RingBuffer::next_power_of_two`: bit-smearing round-up.  The C++ runs on
a 64-bit `size_t`; for the requested capacities the theorems quantify over
(`n ≤ 2^63`) no intermediate value wraps, so plain `Nat` arithmetic agrees
with the unsigned semantics. -/
def next_power_of_two (n : Nat) : Nat :=
  if n = 0 then 1
  else
    let m0 := n - 1
    let m1 := m0 ||| (m0 >>> 1)
    let m2 := m1 ||| (m1 >>> 2)
    let m3 := m2 ||| (m2 >>> 4)
    let m4 := m3 ||| (m3 >>> 8)
    let m5 := m4 ||| (m4 >>> 16)
    let m6 := m5 ||| (m5 >>> 32)
    m6 + 1

/-- `RingBuffer<T>`: fixed storage of `capacity` default-initialised slots,
producer index `tail`, consumer index `head`, and the bit mask
`capacity - 1`. -/
structure RingBuffer (α : Type) : Type where
  capacity : Nat
  mask : Nat
  buffer : List α
  head : Nat
  tail : Nat
deriving DecidableEq, Repr

/-- `RingBuffer::RingBuffer(capacity)`: round the requested capacity up to
the next power of two and pre-allocate the storage. -/
def mkRingBuffer (α : Type) [Inhabited α] (requested : Nat) : RingBuffer α :=
  let c := next_power_of_two requested
  ⟨c, c - 1, List.replicate c default, 0, 0⟩

namespace RingBuffer

/-- `RingBuffer::push`: fail (drop) when advancing `tail` would collide with
`head`; otherwise write the slot and advance. -/
def push (rb : RingBuffer α) (x : α) : Bool × RingBuffer α :=
  let next_tail := (rb.tail + 1) &&& rb.mask
  if next_tail = rb.head then (false, rb)
  else (true, { rb with buffer := rb.buffer.set rb.tail x, tail := next_tail })

/-- `RingBuffer::pop`: empty when `head = tail`; otherwise read the slot at
`head` and advance it. -/
def pop [Inhabited α] (rb : RingBuffer α) : Option (α × RingBuffer α) :=
  if rb.head = rb.tail then none
  else some (rb.buffer.getD rb.head default,
             { rb with head := (rb.head + 1) &&& rb.mask })

end RingBuffer

/-- `MatchingEngine.h`: `EngineEvent = std::variant<TradeEvent, AcceptEvent,
RejectEvent, CancelEvent, ReplaceEvent, BookTop>`, with each alternative's
payload inlined (`Events.h`). -/
inductive EngineEvent : Type
  | trade (t : TradeEvent)
  | accept (id ts : Nat)
  | reject (id ts reason_code : Nat)
  | cancelled (id remaining ts : Nat)
  | replaced (id : Nat) (new_price : Int) (new_qty ts : Nat)
  | bookTop (best_bid : Int) (bid_qty : Nat) (best_ask : Int)
      (ask_qty : Nat) (ts : Nat)
deriving DecidableEq, Repr

instance : Inhabited EngineEvent := ⟨EngineEvent.accept 0 0⟩

/-- `LimitBook::best_bid_ask`: top-of-book snapshot with `INVALID_PRICE`
sentinels and aggregate head quantities. -/
def Book.best_bid_ask (b : Book) (now : Nat) : EngineEvent :=
  EngineEvent.bookTop
    (match b.bids with | [] => INVALID_PRICE | (p, _) :: _ => p)
    (match b.bids with | [] => 0 | (_, l) :: _ => l.total_qty)
    (match b.asks with | [] => INVALID_PRICE | (p, _) :: _ => p)
    (match b.asks with | [] => 0 | (_, l) :: _ => l.total_qty)
    now

/-- `MatchingEngine`: one book plus the SPSC event channel.  The
configuration and shared time source are threaded as the `now` argument of
each operation (the `SimulatedTimeSource` only moves when the caller
advances it, so one call sees a single timestamp). -/
structure Engine : Type where
  book : Book
  event_buffer : RingBuffer EngineEvent
deriving DecidableEq, Repr

/-- `MatchingEngine::MatchingEngine`: fresh book, event ring sized from the
configured `ring_size`. -/
def mkEngine (ring_size : Nat) : Engine :=
  ⟨emptyBook, mkRingBuffer EngineEvent ring_size⟩

namespace Engine

/-- `MatchingEngine::emit_event`: best-effort push; a full ring drops the
event. -/
def emit_event (e : Engine) (ev : EngineEvent) : Engine :=
  { e with event_buffer := (e.event_buffer.push ev).2 }

/-- Fold `emit_event` over a trade list (the `for` loop in
`MatchingEngine::submit` / `replace`). -/
def emit_trades (e : Engine) (trades : List TradeEvent) : Engine :=
  trades.foldl (fun acc t => acc.emit_event (EngineEvent.trade t)) e

/-- `MatchingEngine::submit`: delegate to the book, then emit accept +
trades + book top on success, or a reject (reason 1) on failure. -/
def submit (e : Engine) (o : Order) (now : Nat) : Bool × Engine :=
  let r := e.book.add o now
  let e1 := { e with book := r.2.1 }
  if r.1 then
    let e2 := (e1.emit_event (EngineEvent.accept o.id now)).emit_trades r.2.2
    (true, e2.emit_event (r.2.1.best_bid_ask now))
  else
    (false, e1.emit_event (EngineEvent.reject o.id now 1))

/-- `MatchingEngine::cancel`: delegate; on success emit the cancel event and
a fresh book top; on failure emit nothing. -/
def cancel (e : Engine) (id : Nat) (now : Nat) : Bool × Engine :=
  let r := e.book.cancel id
  let e1 := { e with book := r.2.1 }
  if r.1 then
    let e2 := e1.emit_event (EngineEvent.cancelled id r.2.2 now)
    (true, e2.emit_event (r.2.1.best_bid_ask now))
  else
    (false, e1)

/-- `MatchingEngine::replace`: delegate; on success emit the replace event,
any trades, and a fresh book top; on failure emit nothing. -/
def replace (e : Engine) (id : Nat) (new_price : Int) (new_qty : Nat)
    (now : Nat) : Bool × Engine :=
  let r := e.book.replace id new_price new_qty now
  let e1 := { e with book := r.2.1 }
  if r.1 then
    let e2 := ((e1.emit_event
        (EngineEvent.replaced id new_price new_qty now)).emit_trades
        r.2.2).emit_event (r.2.1.best_bid_ask now)
    (true, e2)
  else
    (false, e1)

end Engine

/-- The `while (event_buffer_.pop(event))` loop of
`MatchingEngine::poll_events`, with an explicit iteration bound.  The ring
never holds more than `capacity - 1` elements, so running the loop
`capacity` times drains it completely. -/
def drainAux [Inhabited α] :
    Nat → RingBuffer α → List α → List α × RingBuffer α
  | 0, rb, acc => (acc, rb)
  | fuel + 1, rb, acc =>
    match rb.pop with
    | none => (acc, rb)
    | some (x, rb') => drainAux fuel rb' (acc ++ [x])

/-- `MatchingEngine::poll_events`: drain the ring into the output vector in
FIFO order; report whether anything was delivered. -/
def Engine.poll_events (e : Engine) : List EngineEvent × Engine :=
  let r := drainAux e.event_buffer.capacity e.event_buffer []
  (r.1, { e with event_buffer := r.2 })

/-! ## Tick-price conversion (`Price.h`)

`Price::from_double` computes `static_cast<int64_t>(price / tick_size +
0.5)`.  The claim about it quantifies over real prices, so the expression is
embedded over exact rationals: `truncToInt` is the semantics of
`static_cast` from a floating value to an integer type (truncation toward
zero). -/

/-- `static_cast<int64_t>` on a non-integral value: truncation toward
zero. -/
def truncToInt (q : ℚ) : Int := if 0 ≤ q then ⌊q⌋ else ⌈q⌉

namespace Price

/-- `Price::from_double`: `static_cast<int64_t>(price / tick_size + 0.5)`. -/
def from_double (price tick_size : ℚ) : Int :=
  truncToInt (price / tick_size + 1 / 2)

end Price

/-- Modelled from the spec (§4.1, the claim's reference semantics, not from
the source): rounding to the nearest integer with ties away from zero. -/
def roundTiesAway (x : ℚ) : Int :=
  if 0 ≤ x then ⌊x + 1 / 2⌋ else ⌈x - 1 / 2⌉

/-! ## Invariant predicates and claim-level harness definitions -/

/-- All binding keys of the order index are distinct (automatic for the C++
`unordered_map`; an invariant of the association-list embedding). -/
def IdxKeysNodup (b : Book) : Prop := (b.order_index.map Prod.fst).Nodup

/-- Every resting slot is a plain `Limit` order (spec §4.5 step 4: only
limit residuals are admitted to the book). -/
def RestingLimitOnly (b : Book) : Prop :=
  ∀ pl ∈ b.bids ++ b.asks, ∀ bo ∈ pl.2.orders,
    bo.order.type = OrderType.Limit

/-- Every resting slot's id is present in the order index (half of the
spec's index-consistency invariant). -/
def SlotsIndexed (b : Book) : Prop :=
  ∀ pl ∈ b.bids ++ b.asks, ∀ bo ∈ pl.2.orders,
    (idxFind b.order_index bo.order.id).isSome = true

/-- No resting slot on this side carries the given id. -/
def NoSlotIdHalf (hb : HalfBook) (id : Nat) : Prop :=
  ∀ pl ∈ hb, ∀ bo ∈ pl.2.orders, bo.order.id ≠ id

/-- No resting slot anywhere in the book carries the given id. -/
def NoSlotWithId (b : Book) (id : Nat) : Prop :=
  NoSlotIdHalf b.bids id ∧ NoSlotIdHalf b.asks id

/-- Each level's cached `total_qty` equals the sum of its slots' remaining
quantities (spec §8 invariant 4), on one side. -/
def TotalsOKHalf (hb : HalfBook) : Prop :=
  ∀ pl ∈ hb, pl.2.total_qty = (pl.2.orders.map BookOrder.remaining_qty).sum

/-- Both sides satisfy the level-total invariant. -/
def TotalsOK (b : Book) : Prop := TotalsOKHalf b.bids ∧ TotalsOKHalf b.asks

/-- No price key maps to an empty level (spec §8 invariant 2), on one
side. -/
def NoEmptyHalf (hb : HalfBook) : Prop := ∀ pl ∈ hb, pl.2.orders ≠ []

/-- Both sides have no empty levels. -/
def NoEmptyLevels (b : Book) : Prop := NoEmptyHalf b.bids ∧ NoEmptyHalf b.asks

/-- Ids of all slots resting on one side, in iteration order. -/
def restingIds : HalfBook → List Nat
  | [] => []
  | (_, l) :: rest => l.orders.map (fun bo => bo.order.id) ++ restingIds rest

/-- `(level price, slot id)` pairs of all slots resting on one side. -/
def restingPairs : HalfBook → List (Int × Nat)
  | [] => []
  | (p, l) :: rest =>
    l.orders.map (fun bo => (p, bo.order.id)) ++ restingPairs rest

/-- The resting pairs of the side an aggressor of side `s` matches
against. -/
def oppositePairs (b : Book) (s : Side) : List (Int × Nat) :=
  match s with
  | Side.Buy => restingPairs b.asks
  | Side.Sell => restingPairs b.bids

/-- The side an aggressor of side `s` matches against. -/
def oppositeHalf (b : Book) (s : Side) : HalfBook :=
  match s with
  | Side.Buy => b.asks
  | Side.Sell => b.bids


/-- A side is kept sorted by its comparator's strict order (spec §8
invariant: monotone ordering of the maps). -/
def SortedHalf (before : Int → Int → Bool) (hb : HalfBook) : Prop :=
  hb.Pairwise (fun x y => before x.1 y.1 = true)

/-- The residual liquidity an aggressor can legally consume: the slot
quantities summed over the maximal prefix of the opposite side whose prices
pass the cross test. -/
def admissibleLiq (o : Order) : HalfBook → Nat
  | [] => 0
  | (p, l) :: rest =>
    if priceBreaks o p && !o.is_market then 0
    else (l.orders.map BookOrder.remaining_qty).sum + admissibleLiq o rest

/-- Sum of the quantities of a trade list. -/
def sumQty (tr : List TradeEvent) : Nat := (tr.map TradeEvent.qty).sum

/-- Total traded quantity credited to one maker id. -/
def sumQtyOf (id : Nat) (tr : List TradeEvent) : Nat :=
  sumQty (tr.filter (fun t => t.maker_id = id))

instance (b : Book) : Decidable (IdxKeysNodup b) := by
  unfold IdxKeysNodup; infer_instance

instance (b : Book) : Decidable (RestingLimitOnly b) := by
  unfold RestingLimitOnly; infer_instance

instance (b : Book) : Decidable (SlotsIndexed b) := by
  unfold SlotsIndexed; infer_instance

instance (hb : HalfBook) (id : Nat) : Decidable (NoSlotIdHalf hb id) := by
  unfold NoSlotIdHalf; infer_instance

instance (b : Book) (id : Nat) : Decidable (NoSlotWithId b id) := by
  unfold NoSlotWithId; infer_instance

instance (hb : HalfBook) : Decidable (TotalsOKHalf hb) := by
  unfold TotalsOKHalf; infer_instance

instance (b : Book) : Decidable (TotalsOK b) := by
  unfold TotalsOK; infer_instance

instance (hb : HalfBook) : Decidable (NoEmptyHalf hb) := by
  unfold NoEmptyHalf; infer_instance

instance (b : Book) : Decidable (NoEmptyLevels b) := by
  unfold NoEmptyLevels; infer_instance

instance (before : Int → Int → Bool) (hb : HalfBook) :
    Decidable (SortedHalf before hb) := by
  unfold SortedHalf; infer_instance

/-- No price level on a side sits at the `INVALID_PRICE` sentinel.
`best_price` conflates an empty side with a resting level at `-1`, so a
level keyed by the sentinel defeats the `would_cross` test. -/
def NoInvalidHalf (hb : HalfBook) : Prop := ∀ pl ∈ hb, pl.1 ≠ INVALID_PRICE

instance (hb : HalfBook) : Decidable (NoInvalidHalf hb) := by
  unfold NoInvalidHalf; infer_instance

/-- The invariant bundle maintained by the public operations (for
sentinel-free prices): both maps sorted by their comparators, no empty
levels, no level keyed at the sentinel, and the book not crossed. -/
def BookInv (b : Book) : Prop :=
  SortedHalf bidBefore b.bids ∧ SortedHalf askBefore b.asks ∧
  NoEmptyLevels b ∧ NoInvalidHalf b.bids ∧ NoInvalidHalf b.asks ∧
  NotCrossed b

instance (b : Book) : Decidable (BookInv b) := by
  unfold BookInv; infer_instance

/-- Book states reachable from a fresh `LimitBook` through the public
operations (`add`, `cancel`, `replace`), with arbitrary arguments. -/
inductive Reachable : Book → Prop where
  | empty : Reachable emptyBook
  | add (b : Book) (o : Order) (now : Nat) :
      Reachable b → Reachable (b.add o now).2.1
  | cancel (b : Book) (id : Nat) :
      Reachable b → Reachable (b.cancel id).2.1
  | replace (b : Book) (id : Nat) (np : Int) (nq : Nat) (now : Nat) :
      Reachable b → Reachable (b.replace id np nq now).2.1

/-- Book states reachable through the public operations when every
submitted or replacement price avoids the `INVALID_PRICE` sentinel. -/
inductive ReachableValid : Book → Prop where
  | empty : ReachableValid emptyBook
  | add (b : Book) (o : Order) (now : Nat) :
      o.price ≠ INVALID_PRICE → ReachableValid b →
      ReachableValid (b.add o now).2.1
  | cancel (b : Book) (id : Nat) :
      ReachableValid b → ReachableValid (b.cancel id).2.1
  | replace (b : Book) (id : Nat) (np : Int) (nq : Nat) (now : Nat) :
      np ≠ INVALID_PRICE → ReachableValid b →
      ReachableValid (b.replace id np nq now).2.1

/-- Sequential pushes: run `RingBuffer::push` once per element, collecting
each push's success flag in order. -/
def pushAll (rb : RingBuffer α) : List α → RingBuffer α × List Bool
  | [] => (rb, [])
  | x :: xs =>
    let r := rb.push x
    let r2 := pushAll r.2 xs
    (r2.1, r.1 :: r2.2)

/-- `y` is `x` smeared over a window of `w` bits: bit `i` of `y` is set iff
some bit of `x` in `[i, i + w)` is set. -/
def BitWindow (y x w : Nat) : Prop :=
  ∀ i, y.testBit i = true ↔ ∃ j, j < w ∧ x.testBit (i + j) = true

/-! ## C8: tick conversion rounding -/

/-- **C8, counterexample.**  The claim says `Price::from_double(p, tick)`
rounds `p / tick` to the nearest tick with ties away from zero *for negative
prices as well*.  At `p = -5/2`, `tick = 1` the code computes
`trunc(-5/2 + 1/2) = trunc(-2) = -2`, while ties-away rounding of `-5/2`
gives `-3` (both `-5/2` and the intermediate `-2.0` are exactly
representable in binary floating point, so the divergence is not a rounding
artifact of the embedding). -/
theorem C8_from_double_negative_counterexample :
    Price.from_double (-5 / 2 : ℚ) 1 = -2 ∧
    roundTiesAway ((-5 / 2 : ℚ) / 1) = -3 ∧
    Price.from_double (-5 / 2 : ℚ) 1 ≠ roundTiesAway ((-5 / 2 : ℚ) / 1) := by
  have h1 : Price.from_double (-5 / 2 : ℚ) 1 = -2 := by
    unfold Price.from_double truncToInt
    have harg : (-5 / 2 : ℚ) / 1 + 1 / 2 = ((-2 : ℤ) : ℚ) := by norm_num
    rw [harg, if_neg (by norm_num), Int.ceil_intCast]
  have h2 : roundTiesAway ((-5 / 2 : ℚ) / 1) = -3 := by
    unfold roundTiesAway
    have harg : (-5 / 2 : ℚ) / 1 = -5 / 2 := by norm_num
    have harg2 : (-5 / 2 : ℚ) - 1 / 2 = ((-3 : ℤ) : ℚ) := by norm_num
    rw [harg, if_neg (by norm_num), harg2, Int.ceil_intCast]
  exact ⟨h1, h2, by rw [h1, h2]; decide⟩

/-- **C8, amended.**  For non-negative real prices and a positive tick size,
`Price::from_double` does round to the nearest tick with ties away from zero
(which on non-negative inputs is `⌊x + 1/2⌋`); the negative-price half of
the claim is false. -/
theorem C8_from_double_rounds_nonneg (p ts : ℚ) (hp : 0 ≤ p) (hts : 0 < ts) :
    Price.from_double p ts = roundTiesAway (p / ts) := by
  have hx : 0 ≤ p / ts := div_nonneg hp (le_of_lt hts)
  have hx2 : 0 ≤ p / ts + 1 / 2 := by linarith
  unfold Price.from_double truncToInt roundTiesAway
  rw [if_pos hx2, if_pos hx]

/-- **C8, witness.**  The amended theorem applied at `p = 5/2`,
`tick = 1`. -/
theorem C8_witness :
    (0 : ℚ) ≤ 5 / 2 ∧ (0 : ℚ) < 1 ∧
    Price.from_double (5 / 2 : ℚ) 1 = roundTiesAway ((5 / 2 : ℚ) / 1) :=
  ⟨by norm_num, by norm_num,
   C8_from_double_rounds_nonneg (5 / 2) 1 (by norm_num) (by norm_num)⟩

/-! ## C10: ring-buffer capacity and fill behaviour -/

theorem bitWindow_self (x : Nat) : BitWindow x x 1 := by
  intro i
  constructor
  · intro h; exact ⟨0, Nat.zero_lt_one, by simpa using h⟩
  · rintro ⟨j, hj, h⟩
    interval_cases j
    simpa using h

theorem bitWindow_step {y x w : Nat} (s : Nat) (h : BitWindow y x w)
    (hs : s ≤ w) :
    BitWindow (y ||| (y >>> s)) x (w + s) := by
  intro i
  rw [Nat.testBit_lor, Nat.testBit_shiftRight]
  constructor
  · intro hor
    rcases Bool.or_eq_true_iff.mp hor with hl | hr
    · obtain ⟨j, hj, hx⟩ := (h i).mp hl
      exact ⟨j, by omega, hx⟩
    · obtain ⟨j, hj, hx⟩ := (h (s + i)).mp hr
      refine ⟨s + j, by omega, ?_⟩
      rw [show i + (s + j) = s + i + j by omega]
      exact hx
  · rintro ⟨j, hj, hx⟩
    by_cases hjw : j < w
    · exact Bool.or_eq_true_iff.mpr (Or.inl ((h i).mpr ⟨j, hjw, hx⟩))
    · refine Bool.or_eq_true_iff.mpr (Or.inr ((h (s + i)).mpr
        ⟨j - s, by omega, ?_⟩))
      rw [show s + i + (j - s) = i + j by omega]
      exact hx

/-- The top set bit of a positive number: bit `size - 1` is set. -/
theorem testBit_size_pred {m : Nat} (hm : m ≠ 0) :
    m.testBit (Nat.size m - 1) = true := by
  have hpos : 0 < m := Nat.pos_of_ne_zero hm
  have hszpos : 0 < Nat.size m := Nat.size_pos.mpr hpos
  have h1 : 2 ^ (Nat.size m - 1) ≤ m := Nat.lt_size.mp (by omega)
  have h2 : m < 2 ^ Nat.size m := Nat.lt_size_self m
  have hdiv : m / 2 ^ (Nat.size m - 1) = 1 := by
    apply Nat.div_eq_of_lt_le (by simpa using h1)
    have : 2 * 2 ^ (Nat.size m - 1) = 2 ^ Nat.size m := by
      rw [← Nat.pow_succ']
      congr 1
      omega
    omega
  rw [Nat.testBit_to_div_mod, hdiv]
  decide

/-- A 64-bit window smear of `m < 2^64` sets exactly the bits below
`size m`. -/
theorem bitWindow_64_eq {y m : Nat} (hw : BitWindow y m 64)
    (hm : m < 2 ^ 64) : y = 2 ^ Nat.size m - 1 := by
  have hsz : Nat.size m ≤ 64 := Nat.size_le.mpr hm
  apply Nat.eq_of_testBit_eq
  intro i
  rw [Nat.testBit_two_pow_sub_one]
  by_cases hi : i < Nat.size m
  · have hm0 : m ≠ 0 := by
      intro h0
      rw [h0] at hi
      simp [Nat.size_zero] at hi
    have hbit : m.testBit (i + (Nat.size m - 1 - i)) = true := by
      rw [show i + (Nat.size m - 1 - i) = Nat.size m - 1 by omega]
      exact testBit_size_pred hm0
    rw [(hw i).mpr ⟨Nat.size m - 1 - i, by omega, hbit⟩]
    simp [hi]
  · have : y.testBit i = false := by
      by_contra hbt
      obtain ⟨j, _, hbit⟩ := (hw i).mp (by simpa using hbt)
      have : m < 2 ^ (i + j) :=
        lt_of_lt_of_le (Nat.lt_size_self m)
          (Nat.pow_le_pow_right (by omega) (by omega))
      rw [Nat.testBit_lt_two_pow this] at hbit
      exact Bool.false_ne_true hbit
    rw [this]
    simp [hi]

/-- For `1 ≤ n` with `n - 1 < 2^64`, the bit-smearing in
`next_power_of_two` yields `2 ^ size (n - 1)`. -/
theorem next_power_of_two_eq_pow_size {n : Nat} (hn : n ≠ 0)
    (hlt : n - 1 < 2 ^ 64) :
    next_power_of_two n = 2 ^ Nat.size (n - 1) := by
  have w1 := bitWindow_self (n - 1)
  have w2 := bitWindow_step 1 w1 (by omega)
  have w4 := bitWindow_step 2 w2 (by omega)
  have w8 := bitWindow_step 4 w4 (by omega)
  have w16 := bitWindow_step 8 w8 (by omega)
  have w32 := bitWindow_step 16 w16 (by omega)
  have w64 := bitWindow_step 32 w32 (by omega)
  have hsm := bitWindow_64_eq w64 hlt
  have hpow : 1 ≤ 2 ^ Nat.size (n - 1) := Nat.one_le_two_pow
  simp only [next_power_of_two, hn, if_false]
  omega

/-- Outcome pattern of sequential pushes into a partially filled
power-of-two ring: with `head = 0` and `tail = 2^s - 1 - k`, the next `k`
pushes succeed and the following one fails. -/
theorem pushAll_pattern {α : Type} (s : Nat) :
    ∀ (k : Nat) (xs : List α) (rb : RingBuffer α),
      rb.head = 0 → rb.capacity = 2 ^ s → rb.mask = 2 ^ s - 1 →
      rb.tail = 2 ^ s - 1 - k → k < 2 ^ s → xs.length = k + 1 →
      (pushAll rb xs).2 = List.replicate k true ++ [false] := by
  intro k
  induction k with
  | zero =>
    intro xs rb hh _ hm ht _ hlen
    match xs with
    | [x] =>
      have hnext : (rb.tail + 1) &&& rb.mask = rb.head := by
        rw [hh, hm, ht, Nat.and_pow_two_sub_one_eq_mod]
        have h1 : 1 ≤ 2 ^ s := Nat.one_le_two_pow
        rw [show 2 ^ s - 1 - 0 + 1 = 2 ^ s by omega]
        exact Nat.mod_self _
      simp [pushAll, RingBuffer.push, hnext]
  | succ k ih =>
    intro xs rb hh hc hm ht hk hlen
    match xs with
    | x :: xs' =>
      have h1 : 1 ≤ 2 ^ s := Nat.one_le_two_pow
      have hnext : (rb.tail + 1) &&& rb.mask = 2 ^ s - 1 - k := by
        rw [hm, ht, Nat.and_pow_two_sub_one_eq_mod]
        rw [show 2 ^ s - 1 - (k + 1) + 1 = 2 ^ s - 1 - k by omega]
        exact Nat.mod_eq_of_lt (by omega)
      have hne : (rb.tail + 1) &&& rb.mask ≠ rb.head := by
        rw [hnext, hh]
        omega
      have hstep :
          pushAll rb (x :: xs') =
            ((pushAll ((rb.push x).2) xs').1,
             (rb.push x).1 :: (pushAll ((rb.push x).2) xs').2) := rfl
      have hpush : rb.push x =
          (true,
            { rb with
                buffer := rb.buffer.set rb.tail x
                tail := (rb.tail + 1) &&& rb.mask }) := by
        simp [RingBuffer.push, hne]
      rw [hstep, hpush]
      have := ih xs'
        { rb with
            buffer := rb.buffer.set rb.tail x
            tail := (rb.tail + 1) &&& rb.mask }
        hh hc hm (by simpa using hnext) (by omega) (by simpa using hlen)
      rw [this]
      simp [List.replicate_succ]

/-- **C10.**  A `RingBuffer` built with requested capacity `n` (any `n` up
to `2^63`, so that the 64-bit bit-smearing cannot wrap) reports as
`capacity()` the least power of two `≥ n` (`1` for `n = 0`), yet holds at
most `capacity() - 1` elements: from a fresh buffer, pushing `capacity()`
events yields `capacity() - 1` successes followed by a failure.  With the
default `ring_size` of 10000 the capacity is 16384, so at most 16383 events
are buffered before dropping. -/
theorem C10_ring_capacity (n : Nat) (hn : n ≤ 2 ^ 63) :
    (mkRingBuffer EngineEvent n).capacity = next_power_of_two n ∧
    n ≤ next_power_of_two n ∧
    (∃ k, next_power_of_two n = 2 ^ k) ∧
    (∀ j, n ≤ 2 ^ j → next_power_of_two n ≤ 2 ^ j) ∧
    (∀ xs : List EngineEvent, xs.length = next_power_of_two n →
      (pushAll (mkRingBuffer EngineEvent n) xs).2 =
        List.replicate (next_power_of_two n - 1) true ++ [false]) ∧
    next_power_of_two 10000 = 16384 := by
  have hpush : ∀ s : Nat, next_power_of_two n = 2 ^ s →
      ∀ xs : List EngineEvent, xs.length = next_power_of_two n →
      (pushAll (mkRingBuffer EngineEvent n) xs).2 =
        List.replicate (next_power_of_two n - 1) true ++ [false] := by
    intro s hs xs hlen
    have h1 : 1 ≤ 2 ^ s := Nat.one_le_two_pow
    rw [hs] at hlen ⊢
    exact pushAll_pattern s (2 ^ s - 1) xs (mkRingBuffer EngineEvent n)
      rfl (by simp [mkRingBuffer, hs]) (by simp [mkRingBuffer, hs])
      (by simp [mkRingBuffer]) (by omega) (by omega)
  by_cases hn0 : n = 0
  · subst hn0
    refine ⟨rfl, by decide, ⟨0, by decide⟩, ?_, hpush 0 (by decide), by decide⟩
    intro j _
    have : next_power_of_two 0 = 1 := by decide
    rw [this]
    exact Nat.one_le_two_pow
  · have hlt : n - 1 < 2 ^ 64 := by
      have : (2 : Nat) ^ 63 < 2 ^ 64 := by norm_num
      omega
    have heq := next_power_of_two_eq_pow_size hn0 hlt
    refine ⟨rfl, ?_, ⟨Nat.size (n - 1), heq⟩, ?_, hpush _ heq, by decide⟩
    · rw [heq]
      have := Nat.lt_size_self (n - 1)
      omega
    · intro j hj
      rw [heq]
      exact Nat.pow_le_pow_right (by omega)
        (Nat.size_le.mpr (by omega))

/-- **C10, witness.**  The theorem applied at the engine's default
`ring_size` of 10000: capacity 16384, and pushing 16384 events from fresh
gives 16383 successes then one drop. -/
theorem C10_witness :
    (pushAll (mkRingBuffer EngineEvent 10000)
        (List.replicate 16384 (EngineEvent.accept 0 0))).2 =
      List.replicate 16383 true ++ [false] := by
  have h := (C10_ring_capacity 10000 (by norm_num)).2.2.2.2
  have hcap : next_power_of_two 10000 = 16384 := h.2
  have h2 := h.1 (List.replicate 16384 (EngineEvent.accept 0 0))
    (by rw [hcap]; exact List.length_replicate 16384 _)
  rw [hcap] at h2
  norm_num at h2
  exact h2

/-! ## C9: failed engine cancel / replace emit no events -/

/-- Equal event buffers yield equal `poll_events` output. -/
theorem poll_events_congr {e e' : Engine}
    (h : e'.event_buffer = e.event_buffer) :
    e'.poll_events.1 = e.poll_events.1 := by
  simp [Engine.poll_events, h]

/-- **C9.**  When `MatchingEngine::cancel` or `MatchingEngine::replace`
returns `false`, nothing is pushed onto the event channel: the ring is
exactly as before the call (no `Rejected` or any other event), so a
subsequent `poll_events` delivers exactly the events that were buffered
before the failed call. -/
theorem C9_failed_cancel_replace_emit_nothing
    (e : Engine) (id : Nat) (new_price : Int) (new_qty now : Nat) :
    ((e.cancel id now).1 = false →
      (e.cancel id now).2.event_buffer = e.event_buffer ∧
      (e.cancel id now).2.poll_events.1 = e.poll_events.1) ∧
    ((e.replace id new_price new_qty now).1 = false →
      (e.replace id new_price new_qty now).2.event_buffer = e.event_buffer ∧
      (e.replace id new_price new_qty now).2.poll_events.1 =
        e.poll_events.1) := by
  constructor
  · intro hf
    have hbuf : (e.cancel id now).2.event_buffer = e.event_buffer := by
      rcases hr : e.book.cancel id with ⟨ok, b', q⟩
      cases ok
      · simp [Engine.cancel, hr]
      · exfalso
        rw [Engine.cancel, hr] at hf
        simp at hf
    exact ⟨hbuf, poll_events_congr hbuf⟩
  · intro hf
    have hbuf : (e.replace id new_price new_qty now).2.event_buffer =
        e.event_buffer := by
      rcases hr : e.book.replace id new_price new_qty now with ⟨ok, b', tr⟩
      cases ok
      · simp [Engine.replace, hr]
      · exfalso
        rw [Engine.replace, hr] at hf
        simp at hf
    exact ⟨hbuf, poll_events_congr hbuf⟩

/-- **C9, witness.**  On a fresh engine (empty book, ring of capacity 4)
cancelling and replacing the unknown id 5 both fail and leave the event
buffer untouched. -/
theorem C9_witness :
    ((mkEngine 4).cancel 5 0).1 = false ∧
    ((mkEngine 4).replace 5 100 7 0).1 = false ∧
    ((mkEngine 4).cancel 5 0).2.event_buffer = (mkEngine 4).event_buffer ∧
    ((mkEngine 4).replace 5 100 7 0).2.poll_events.1 =
      (mkEngine 4).poll_events.1 :=
  ⟨by decide, by decide,
   ((C9_failed_cancel_replace_emit_nothing (mkEngine 4) 5 100 7 0).1
      (by decide)).1,
   ((C9_failed_cancel_replace_emit_nothing (mkEngine 4) 5 100 7 0).2
      (by decide)).2⟩

/-! ## C4: failure atomicity of submit / cancel / replace -/

theorem hbFind_mem {hb : HalfBook} {p : Int} {l : BookLevel}
    (h : hbFind hb p = some l) : (p, l) ∈ hb := by
  induction hb with
  | nil => simp [hbFind] at h
  | cons head rest ih =>
    rw [hbFind] at h
    by_cases hpq : p = head.1
    · rw [if_pos hpq] at h
      cases h
      rw [hpq]
      exact List.mem_cons_self _ _
    · rw [if_neg hpq] at h
      exact List.mem_cons_of_mem _ (ih h)

theorem idxFind_eq_none_of_not_mem {idx : OrderIndex} {id : Nat}
    (h : id ∉ idx.map Prod.fst) : idxFind idx id = none := by
  induction idx with
  | nil => rfl
  | cons head rest ih =>
    rw [idxFind]
    simp only [List.map_cons, List.mem_cons] at h
    push_neg at h
    rw [if_neg h.1]
    exact ih h.2

theorem idxErase_find_self {idx : OrderIndex} {id : Nat}
    (h : (idx.map Prod.fst).Nodup) : idxFind (idxErase idx id) id = none := by
  induction idx with
  | nil => rfl
  | cons head rest ih =>
    simp only [List.map_cons, List.nodup_cons] at h
    rw [idxErase]
    by_cases hk : id = head.1
    · rw [if_pos hk]
      apply idxFind_eq_none_of_not_mem
      rw [hk]
      exact h.1
    · rw [if_neg hk, idxFind, if_neg hk]
      exact ih h.2

/-- A cancel of an id present in the index succeeds, erases exactly that id
from the index, and leaves the index otherwise untouched. -/
theorem cancel_found {b : Book} {id : Nat} {loc : OrderLocation}
    (h : idxFind b.order_index id = some loc) :
    (b.cancel id).1 = true ∧
    (b.cancel id).2.1.order_index = idxErase b.order_index id := by
  cases hs : loc.side <;> simp [Book.cancel, h, hs]

theorem cancel_false_unchanged {b : Book} {id : Nat}
    (h : (b.cancel id).1 = false) : (b.cancel id).2.1 = b := by
  rcases hf : idxFind b.order_index id with _ | loc
  · simp [Book.cancel, hf]
  · rw [(cancel_found hf).1] at h
    cases h

theorem add_false_unchanged {b : Book} {o : Order} {now : Nat}
    (h : (b.add o now).1 = false) :
    (b.add o now).2.1 = b ∧ (b.add o now).2.2 = [] := by
  rw [Book.add] at h ⊢
  split_ifs at h ⊢ <;> try simp_all
  all_goals (revert h; split <;> simp)

/-- A plain limit order with a fresh id is always admitted. -/
theorem add_limit_succeeds (b : Book) (o : Order) (now : Nat)
    (hl : o.type = OrderType.Limit)
    (hf : idxFind b.order_index o.id = none) :
    (b.add o now).1 = true := by
  rw [Book.add]
  simp [hf, Order.is_market, Order.is_ioc, Order.is_fok, hl]

theorem replace_false_unchanged {b : Book} {id : Nat} {np : Int}
    {nq now : Nat} (hnodup : IdxKeysNodup b) (hlimit : RestingLimitOnly b)
    (h : (b.replace id np nq now).1 = false) :
    (b.replace id np nq now).2.1 = b ∧ (b.replace id np nq now).2.2 = [] := by
  rcases hf : idxFind b.order_index id with _ | loc
  · simp [Book.replace, hf]
  · have hc := cancel_found hf
    have hcnone : idxFind (b.cancel id).2.1.order_index id = none := by
      rw [hc.2]
      exact idxErase_find_self hnodup
    cases hs : loc.side
    · rcases hfb : hbFind b.bids loc.price with _ | lvl
      · simp [Book.replace, hf, hs, hfb]
      · rcases hfo : lvl.find_order id with _ | bo
        · simp [Book.replace, hf, hs, hfb, hfo]
        · exfalso
          have hmem : bo ∈ lvl.orders := List.mem_of_find?_eq_some hfo
          have hid : bo.order.id = id := by
            have := List.find?_some hfo
            simpa using this
          have htype : bo.order.type = OrderType.Limit :=
            hlimit (loc.price, lvl)
              (List.mem_append_left _ (hbFind_mem hfb)) bo hmem
          have hcnone' :
              idxFind (b.cancel id).2.1.order_index bo.order.id = none := by
            rw [hid]; exact hcnone
          have htrue : (b.replace id np nq now).1 = true := by
            simp only [Book.replace, hf, hs, hfb, hfo, Option.some_bind]
            rw [if_neg (by simp [hc.1])]
            exact add_limit_succeeds _ _ _ htype hcnone'
          rw [htrue] at h
          cases h
    · rcases hfb : hbFind b.asks loc.price with _ | lvl
      · simp [Book.replace, hf, hs, hfb]
      · rcases hfo : lvl.find_order id with _ | bo
        · simp [Book.replace, hf, hs, hfb, hfo]
        · exfalso
          have hmem : bo ∈ lvl.orders := List.mem_of_find?_eq_some hfo
          have hid : bo.order.id = id := by
            have := List.find?_some hfo
            simpa using this
          have htype : bo.order.type = OrderType.Limit :=
            hlimit (loc.price, lvl)
              (List.mem_append_right _ (hbFind_mem hfb)) bo hmem
          have hcnone' :
              idxFind (b.cancel id).2.1.order_index bo.order.id = none := by
            rw [hid]; exact hcnone
          have htrue : (b.replace id np nq now).1 = true := by
            simp only [Book.replace, hf, hs, hfb, hfo, Option.some_bind]
            rw [if_neg (by simp [hc.1])]
            exact add_limit_succeeds _ _ _ htype hcnone'
          rw [htrue] at h
          cases h

/-- **C4.**  Failure atomicity: whenever `submit` (book `add`), `cancel` or
`replace` returns `false` on a well-formed book (unique index keys, only
limit orders resting — both always true of reachable books), the book —
bids, asks and order index — is exactly as before the call and no trades
are emitted; in particular a failing replace can only be the unknown-id
case, which leaves the original resting order untouched. -/
theorem C4_failure_atomicity (b : Book) (o : Order) (id : Nat) (np : Int)
    (nq now : Nat) (hnodup : IdxKeysNodup b) (hlimit : RestingLimitOnly b) :
    ((b.add o now).1 = false →
      (b.add o now).2.1 = b ∧ (b.add o now).2.2 = []) ∧
    ((b.cancel id).1 = false → (b.cancel id).2.1 = b) ∧
    ((b.replace id np nq now).1 = false →
      (b.replace id np nq now).2.1 = b ∧
      (b.replace id np nq now).2.2 = []) :=
  ⟨fun h => add_false_unchanged h,
   fun h => cancel_false_unchanged h,
   fun h => replace_false_unchanged hnodup hlimit h⟩

/-- **C4, witness.**  On the one-order book obtained by resting a limit
bid, a duplicate-id submit, an unknown-id cancel and an unknown-id replace
all fail and leave the book exactly as it was. -/
theorem C4_witness :
    (((emptyBook.add ⟨1, Side.Buy, 100, 5, 0, OrderType.Limit⟩ 0).2.1.add
        ⟨1, Side.Sell, 101, 5, 0, OrderType.Limit⟩ 1).1 = false ∧
      ((emptyBook.add ⟨1, Side.Buy, 100, 5, 0, OrderType.Limit⟩ 0).2.1.add
        ⟨1, Side.Sell, 101, 5, 0, OrderType.Limit⟩ 1).2.1 =
        (emptyBook.add ⟨1, Side.Buy, 100, 5, 0, OrderType.Limit⟩ 0).2.1) ∧
    ((emptyBook.add ⟨1, Side.Buy, 100, 5, 0, OrderType.Limit⟩ 0).2.1.replace
        7 99 3 2).2.1 =
      (emptyBook.add ⟨1, Side.Buy, 100, 5, 0, OrderType.Limit⟩ 0).2.1 := by
  have h := C4_failure_atomicity
    (emptyBook.add ⟨1, Side.Buy, 100, 5, 0, OrderType.Limit⟩ 0).2.1
    ⟨1, Side.Sell, 101, 5, 0, OrderType.Limit⟩ 7 99 3 2
    (by decide) (by decide)
  exact ⟨⟨by decide, (h.1 (by decide)).1⟩, (h.2.2 (by decide)).1⟩

/-! ## Reduction lemmas for the matching loop -/

theorem matchLoop_zero (o : Order) (hb : HalfBook) (idx : OrderIndex)
    (now : Nat) (acc : List TradeEvent) :
    matchLoop 0 o hb idx now acc = (o, hb, idx, acc) := rfl

theorem matchLoop_nil (fuel : Nat) (o : Order) (idx : OrderIndex) (now : Nat)
    (acc : List TradeEvent) :
    matchLoop fuel o [] idx now acc = (o, [], idx, acc) := by
  cases fuel <;> rfl

theorem matchLoop_qty0 {o : Order} (fuel : Nat) (p : Int) (l : BookLevel)
    (rest : HalfBook) (idx : OrderIndex) (now : Nat) (acc : List TradeEvent)
    (h : o.qty = 0) :
    matchLoop (fuel + 1) o ((p, l) :: rest) idx now acc =
      (o, (p, l) :: rest, idx, acc) := by
  rw [matchLoop, if_pos h]

theorem matchLoop_stop {o : Order} {p : Int} (fuel : Nat) (l : BookLevel)
    (rest : HalfBook) (idx : OrderIndex) (now : Nat) (acc : List TradeEvent)
    (h0 : o.qty ≠ 0) (h : (!o.is_market && priceBreaks o p) = true) :
    matchLoop (fuel + 1) o ((p, l) :: rest) idx now acc =
      (o, (p, l) :: rest, idx, acc) := by
  rw [matchLoop, if_neg h0, if_pos h]

theorem matchLoop_frontNone {o : Order} {p : Int} {l : BookLevel}
    (fuel : Nat) (rest : HalfBook) (idx : OrderIndex) (now : Nat)
    (acc : List TradeEvent) (h0 : o.qty ≠ 0)
    (h1 : ¬(!o.is_market && priceBreaks o p) = true)
    (h2 : l.front = none) :
    matchLoop (fuel + 1) o ((p, l) :: rest) idx now acc =
      (o, (p, l) :: rest, idx, acc) := by
  rw [matchLoop, if_neg h0, if_neg h1]
  split
  · rfl
  · rename_i maker hmk
    rw [h2] at hmk
    cases hmk

theorem matchLoop_popStep {o : Order} {p : Int} {l : BookLevel}
    {maker : BookOrder} (fuel : Nat) (rest : HalfBook) (idx : OrderIndex)
    (now : Nat) (acc : List TradeEvent) (h0 : o.qty ≠ 0)
    (h1 : ¬(!o.is_market && priceBreaks o p) = true)
    (h2 : l.front = some maker)
    (h3 : maker.remaining_qty - min o.qty maker.remaining_qty = 0) :
    matchLoop (fuel + 1) o ((p, l) :: rest) idx now acc =
      matchLoop fuel { o with qty := o.qty - min o.qty maker.remaining_qty }
        (if l.pop_front.isEmpty then rest else (p, l.pop_front) :: rest)
        (idxErase idx maker.order.id) now
        (acc ++ [⟨o.id, maker.order.id, p,
                 min o.qty maker.remaining_qty, now⟩]) := by
  rw [matchLoop, if_neg h0, if_neg h1]
  split
  · rename_i hmk
    rw [h2] at hmk
    cases hmk
  · rename_i maker' hmk
    rw [h2] at hmk
    cases hmk
    rw [if_pos h3]

theorem matchLoop_updateStep {o : Order} {p : Int} {l : BookLevel}
    {maker : BookOrder} (fuel : Nat) (rest : HalfBook) (idx : OrderIndex)
    (now : Nat) (acc : List TradeEvent) (h0 : o.qty ≠ 0)
    (h1 : ¬(!o.is_market && priceBreaks o p) = true)
    (h2 : l.front = some maker)
    (h3 : maker.remaining_qty - min o.qty maker.remaining_qty ≠ 0) :
    matchLoop (fuel + 1) o ((p, l) :: rest) idx now acc =
      matchLoop fuel { o with qty := o.qty - min o.qty maker.remaining_qty }
        ((p, l.update_front_qty
            (maker.remaining_qty - min o.qty maker.remaining_qty)) :: rest)
        idx now
        (acc ++ [⟨o.id, maker.order.id, p,
                 min o.qty maker.remaining_qty, now⟩]) := by
  rw [matchLoop, if_neg h0, if_neg h1]
  split
  · rename_i hmk
    rw [h2] at hmk
    cases hmk
  · rename_i maker' hmk
    rw [h2] at hmk
    cases hmk
    rw [if_neg h3]

/-! ## Structural facts about the matching loop -/

theorem front_some_orders {l : BookLevel} {maker : BookOrder}
    (h : l.front = some maker) :
    l.orders = maker :: l.pop_front.orders := by
  rcases hl : l.orders with _ | ⟨bo, tl⟩
  · rw [BookLevel.front, hl] at h
    cases h
  · rw [BookLevel.front, hl] at h
    simp only [List.head?_cons, Option.some.injEq] at h
    subst h
    simp [BookLevel.pop_front, hl]

theorem update_front_orders {l : BookLevel} {maker : BookOrder}
    (h : l.front = some maker) (n : Nat) :
    (l.update_front_qty n).orders =
      { maker with remaining_qty := n } :: l.pop_front.orders := by
  rcases hl : l.orders with _ | ⟨bo, tl⟩
  · rw [BookLevel.front, hl] at h
    cases h
  · rw [BookLevel.front, hl] at h
    simp only [List.head?_cons, Option.some.injEq] at h
    subst h
    simp [BookLevel.update_front_qty, BookLevel.pop_front, hl]

theorem countOrders_cons (p : Int) (l : BookLevel) (rest : HalfBook) :
    countOrders ((p, l) :: rest) = l.orders.length + countOrders rest := by
  simp [countOrders]

/-- A popped maker removes exactly one slot from the side. -/
theorem countOrders_pop {l : BookLevel} {maker : BookOrder}
    (h : l.front = some maker) (p : Int) (rest : HalfBook) :
    countOrders (if l.pop_front.isEmpty then rest
      else (p, l.pop_front) :: rest) + 1 = countOrders ((p, l) :: rest) := by
  have hlen : l.orders.length = l.pop_front.orders.length + 1 := by
    rw [front_some_orders h]
    simp
  by_cases hemp : l.pop_front.isEmpty
  · rw [if_pos hemp]
    have hnil : l.pop_front.orders = [] := List.isEmpty_iff.mp hemp
    rw [hnil] at hlen
    rw [countOrders_cons]
    simp only [List.length_nil] at hlen
    omega
  · rw [if_neg hemp, countOrders_cons, countOrders_cons]
    omega

/-- Updating the front slot's quantity does not change the slot count. -/
theorem countOrders_update {l : BookLevel} {maker : BookOrder}
    (h : l.front = some maker) (n : Nat) (p : Int) (rest : HalfBook) :
    countOrders ((p, l.update_front_qty n) :: rest) =
      countOrders ((p, l) :: rest) := by
  rw [countOrders_cons, countOrders_cons, update_front_orders h,
    front_some_orders h]
  simp

/-- In the update branch the maker absorbed the whole aggressor: the fill is
the full remaining quantity of the order. -/
theorem update_branch_fill {oq mr : Nat} (h3 : mr - min oq mr ≠ 0) :
    oq - min oq mr = 0 := by
  rcases Nat.le_total oq mr with hle | hle
  · rw [Nat.min_eq_left hle]
    omega
  · rw [Nat.min_eq_right hle] at h3 ⊢
    omega

/-- Any fuel strictly above the loop's termination measure computes the
same result; in particular the callers' `measure + 1` is enough. -/
theorem matchLoop_fuel_irrelevant :
    ∀ (f1 f2 : Nat) (o : Order) (hb : HalfBook) (idx : OrderIndex)
      (now : Nat) (acc : List TradeEvent),
      o.qty + countOrders hb < f1 → o.qty + countOrders hb < f2 →
      matchLoop f1 o hb idx now acc = matchLoop f2 o hb idx now acc := by
  intro f1
  induction f1 with
  | zero => intro f2 o hb idx now acc hm1 _; omega
  | succ f ih =>
    intro f2 o hb idx now acc hm1 hm2
    match f2, hb with
    | 0, hb => omega
    | g + 1, [] => rw [matchLoop_nil, matchLoop_nil]
    | g + 1, (p, l) :: rest =>
      by_cases h0 : o.qty = 0
      · rw [matchLoop_qty0 _ _ _ _ _ _ _ h0, matchLoop_qty0 _ _ _ _ _ _ _ h0]
      · by_cases h1 : (!o.is_market && priceBreaks o p) = true
        · rw [matchLoop_stop _ _ _ _ _ _ h0 h1,
            matchLoop_stop _ _ _ _ _ _ h0 h1]
        · rcases h2 : l.front with _ | maker
          · rw [matchLoop_frontNone _ _ _ _ _ h0 h1 h2,
              matchLoop_frontNone _ _ _ _ _ h0 h1 h2]
          · by_cases h3 :
                maker.remaining_qty - min o.qty maker.remaining_qty = 0
            · rw [matchLoop_popStep _ _ _ _ _ h0 h1 h2 h3,
                matchLoop_popStep _ _ _ _ _ h0 h1 h2 h3]
              apply ih
              · have := countOrders_pop h2 p rest
                have hfill : o.qty - min o.qty maker.remaining_qty ≤ o.qty :=
                  Nat.sub_le _ _
                simp only []
                omega
              · have := countOrders_pop h2 p rest
                simp only []
                omega
            · rw [matchLoop_updateStep _ _ _ _ _ h0 h1 h2 h3,
                matchLoop_updateStep _ _ _ _ _ h0 h1 h2 h3]
              apply ih
              · have hc := countOrders_update h2
                  (maker.remaining_qty - min o.qty maker.remaining_qty) p rest
                have hfz := update_branch_fill h3
                simp only []
                omega
              · have hc := countOrders_update h2
                  (maker.remaining_qty - min o.qty maker.remaining_qty) p rest
                have hfz := update_branch_fill h3
                simp only []
                omega

/-- The matching loop changes only the aggressor's quantity, never its
identity fields. -/
theorem matchLoop_order_fields (fuel : Nat) (o : Order) (hb : HalfBook)
    (idx : OrderIndex) (now : Nat) (acc : List TradeEvent) :
    (matchLoop fuel o hb idx now acc).1 =
      { o with qty := (matchLoop fuel o hb idx now acc).1.qty } := by
  induction fuel, o, hb, idx, now, acc using matchLoop.induct with
  | case1 o hb idx now acc => rw [matchLoop_zero]
  | case2 f o idx now acc => rw [matchLoop_nil]
  | case3 f o p l rest idx now acc h0 => rw [matchLoop_qty0 _ _ _ _ _ _ _ h0]
  | case4 f o p l rest idx now acc h0 h1 =>
    rw [matchLoop_stop _ _ _ _ _ _ h0 h1]
  | case5 f o p l rest idx now acc h0 h1 h2 =>
    rw [matchLoop_frontNone _ _ _ _ _ h0 h1 h2]
  | case6 f o p l rest idx now acc h0 h1 maker h2 h3 ih =>
    rw [matchLoop_popStep _ _ _ _ _ h0 h1 h2 h3]
    exact ih
  | case7 f o p l rest idx now acc h0 h1 maker h2 h3 ih =>
    rw [matchLoop_updateStep _ _ _ _ _ h0 h1 h2 h3]
    exact ih

theorem idxErase_preserves_none {idx : OrderIndex} {id j : Nat}
    (h : idxFind idx id = none) : idxFind (idxErase idx j) id = none := by
  induction idx with
  | nil => rfl
  | cons head rest ih =>
    rw [idxFind] at h
    by_cases hk : id = head.1
    · rw [if_pos hk] at h
      cases h
    · rw [if_neg hk] at h
      rw [idxErase]
      by_cases hj : j = head.1
      · rw [if_pos hj]
        exact h
      · rw [if_neg hj, idxFind, if_neg hk]
        exact ih h

/-- Matching only ever erases index entries: an id absent from the index
stays absent. -/
theorem matchLoop_index_none {id : Nat} (fuel : Nat) (o : Order)
    (hb : HalfBook) (idx : OrderIndex) (now : Nat) (acc : List TradeEvent) :
    idxFind idx id = none →
    idxFind (matchLoop fuel o hb idx now acc).2.2.1 id = none := by
  induction fuel, o, hb, idx, now, acc using matchLoop.induct with
  | case1 o hb idx now acc => intro h; rw [matchLoop_zero]; exact h
  | case2 f o idx now acc => intro h; rw [matchLoop_nil]; exact h
  | case3 f o p l rest idx now acc h0 =>
    intro h; rw [matchLoop_qty0 _ _ _ _ _ _ _ h0]; exact h
  | case4 f o p l rest idx now acc h0 h1 =>
    intro h; rw [matchLoop_stop _ _ _ _ _ _ h0 h1]; exact h
  | case5 f o p l rest idx now acc h0 h1 h2 =>
    intro h; rw [matchLoop_frontNone _ _ _ _ _ h0 h1 h2]; exact h
  | case6 f o p l rest idx now acc h0 h1 maker h2 h3 ih =>
    intro h
    rw [matchLoop_popStep _ _ _ _ _ h0 h1 h2 h3]
    exact ih (idxErase_preserves_none h)
  | case7 f o p l rest idx now acc h0 h1 maker h2 h3 ih =>
    intro h
    rw [matchLoop_updateStep _ _ _ _ _ h0 h1 h2 h3]
    exact ih h

/-- Matching only ever removes or shrinks slots: a side with no slot of the
given id still has none afterwards. -/
theorem matchLoop_noSlot {id : Nat} (fuel : Nat) (o : Order) (hb : HalfBook)
    (idx : OrderIndex) (now : Nat) (acc : List TradeEvent) :
    NoSlotIdHalf hb id →
    NoSlotIdHalf (matchLoop fuel o hb idx now acc).2.1 id := by
  induction fuel, o, hb, idx, now, acc using matchLoop.induct with
  | case1 o hb idx now acc => intro h; rw [matchLoop_zero]; exact h
  | case2 f o idx now acc => intro h; rw [matchLoop_nil]; exact h
  | case3 f o p l rest idx now acc h0 =>
    intro h; rw [matchLoop_qty0 _ _ _ _ _ _ _ h0]; exact h
  | case4 f o p l rest idx now acc h0 h1 =>
    intro h; rw [matchLoop_stop _ _ _ _ _ _ h0 h1]; exact h
  | case5 f o p l rest idx now acc h0 h1 h2 =>
    intro h; rw [matchLoop_frontNone _ _ _ _ _ h0 h1 h2]; exact h
  | case6 f o p l rest idx now acc h0 h1 maker h2 h3 ih =>
    intro h
    rw [matchLoop_popStep _ _ _ _ _ h0 h1 h2 h3]
    apply ih
    intro pl hpl bo hbo
    by_cases hemp : l.pop_front.isEmpty
    · rw [if_pos hemp] at hpl
      exact h pl (List.mem_cons_of_mem _ hpl) bo hbo
    · rw [if_neg hemp] at hpl
      rcases List.mem_cons.mp hpl with heq | hmem
      · subst heq
        refine h (p, l) (List.mem_cons_self _ _) bo ?_
        rw [front_some_orders h2]
        exact List.mem_cons_of_mem _ hbo
      · exact h pl (List.mem_cons_of_mem _ hmem) bo hbo
  | case7 f o p l rest idx now acc h0 h1 maker h2 h3 ih =>
    intro h
    rw [matchLoop_updateStep _ _ _ _ _ h0 h1 h2 h3]
    apply ih
    intro pl hpl bo hbo
    rcases List.mem_cons.mp hpl with heq | hmem
    · subst heq
      rw [update_front_orders h2] at hbo
      rcases List.mem_cons.mp hbo with hbo1 | hbo2
      · subst hbo1
        exact h (p, l) (List.mem_cons_self _ _) maker
          (by rw [front_some_orders h2]; exact List.mem_cons_self _ _)
      · refine h (p, l) (List.mem_cons_self _ _) bo ?_
        rw [front_some_orders h2]
        exact List.mem_cons_of_mem _ hbo2
    · exact h pl (List.mem_cons_of_mem _ hmem) bo hbo

/-- Book-level corollary: matching preserves "this id is nowhere in the
book" (index and both sides). -/
theorem match_order_preserves_absent (b : Book) (o : Order) (now : Nat)
    (acc : List TradeEvent) (id : Nat)
    (h1 : idxFind b.order_index id = none) (h2 : NoSlotWithId b id) :
    idxFind (b.match_order o now acc).2.1.order_index id = none ∧
    NoSlotWithId (b.match_order o now acc).2.1 id := by
  cases hs : o.side <;>
    simp only [Book.match_order, hs] <;>
    exact ⟨matchLoop_index_none _ _ _ _ _ _ h1,
      by
        constructor
        · first
            | exact h2.1
            | exact matchLoop_noSlot _ _ _ _ _ _ h2.1
        · first
            | exact h2.2
            | exact matchLoop_noSlot _ _ _ _ _ _ h2.2⟩

/-- `match_order` changes only the aggressor's quantity. -/
theorem match_order_fields (b : Book) (o : Order) (now : Nat)
    (acc : List TradeEvent) :
    (b.match_order o now acc).1 =
      { o with qty := (b.match_order o now acc).1.qty } := by
  cases hs : o.side <;>
    simp only [Book.match_order, hs] <;>
    rw [matchLoop_order_fields] <;>
    rw [hs]

/-- Every trade the loop emits (beyond the accumulator) pairs the maker's id
with the price of the level the maker was resting at. -/
theorem matchLoop_trades_pairs (fuel : Nat) (o : Order) (hb : HalfBook)
    (idx : OrderIndex) (now : Nat) (acc : List TradeEvent) :
    ∀ t ∈ (matchLoop fuel o hb idx now acc).2.2.2,
      t ∈ acc ∨ (t.price, t.maker_id) ∈ restingPairs hb := by
  induction fuel, o, hb, idx, now, acc using matchLoop.induct with
  | case1 o hb idx now acc => intro t ht; rw [matchLoop_zero] at ht; exact Or.inl ht
  | case2 f o idx now acc => intro t ht; rw [matchLoop_nil] at ht; exact Or.inl ht
  | case3 f o p l rest idx now acc h0 =>
    intro t ht; rw [matchLoop_qty0 _ _ _ _ _ _ _ h0] at ht; exact Or.inl ht
  | case4 f o p l rest idx now acc h0 h1 =>
    intro t ht; rw [matchLoop_stop _ _ _ _ _ _ h0 h1] at ht; exact Or.inl ht
  | case5 f o p l rest idx now acc h0 h1 h2 =>
    intro t ht; rw [matchLoop_frontNone _ _ _ _ _ h0 h1 h2] at ht
    exact Or.inl ht
  | case6 f o p l rest idx now acc h0 h1 maker h2 h3 ih =>
    intro t ht
    rw [matchLoop_popStep _ _ _ _ _ h0 h1 h2 h3] at ht
    rcases ih t ht with hacc | hpair
    · rcases List.mem_append.mp hacc with hold | hnew
      · exact Or.inl hold
      · right
        have : t = ⟨o.id, maker.order.id, p,
            min o.qty maker.remaining_qty, now⟩ := by simpa using hnew
        subst this
        rw [restingPairs, front_some_orders h2]
        exact List.mem_append_left _ (by simp)
    · right
      by_cases hemp : l.pop_front.isEmpty
      · rw [if_pos hemp] at hpair
        rw [restingPairs]
        exact List.mem_append_right _ hpair
      · rw [if_neg hemp] at hpair
        rw [restingPairs] at hpair ⊢
        rcases List.mem_append.mp hpair with hh | hr
        · refine List.mem_append_left _ ?_
          rw [front_some_orders h2]
          simp only [List.map_cons]
          exact List.mem_cons_of_mem _ hh
        · exact List.mem_append_right _ hr
  | case7 f o p l rest idx now acc h0 h1 maker h2 h3 ih =>
    intro t ht
    rw [matchLoop_updateStep _ _ _ _ _ h0 h1 h2 h3] at ht
    rcases ih t ht with hacc | hpair
    · rcases List.mem_append.mp hacc with hold | hnew
      · exact Or.inl hold
      · right
        have : t = ⟨o.id, maker.order.id, p,
            min o.qty maker.remaining_qty, now⟩ := by simpa using hnew
        subst this
        rw [restingPairs, front_some_orders h2]
        exact List.mem_append_left _ (by simp)
    · right
      rw [restingPairs] at hpair ⊢
      rcases List.mem_append.mp hpair with hh | hr
      · refine List.mem_append_left _ ?_
        rw [update_front_orders h2] at hh
        rw [front_some_orders h2]
        simp only [List.map_cons] at hh ⊢
        rcases List.mem_cons.mp hh with h1' | h2'
        · exact h1' ▸ List.mem_cons_self _ _
        · exact List.mem_cons_of_mem _ h2'
      · exact List.mem_append_right _ hr

/-- Matching never adds resting pairs. -/
theorem matchLoop_pairs_mono (fuel : Nat) (o : Order) (hb : HalfBook)
    (idx : OrderIndex) (now : Nat) (acc : List TradeEvent) :
    ∀ pr ∈ restingPairs (matchLoop fuel o hb idx now acc).2.1,
      pr ∈ restingPairs hb := by
  induction fuel, o, hb, idx, now, acc using matchLoop.induct with
  | case1 o hb idx now acc => intro pr h; rwa [matchLoop_zero] at h
  | case2 f o idx now acc => intro pr h; rwa [matchLoop_nil] at h
  | case3 f o p l rest idx now acc h0 =>
    intro pr h; rwa [matchLoop_qty0 _ _ _ _ _ _ _ h0] at h
  | case4 f o p l rest idx now acc h0 h1 =>
    intro pr h; rwa [matchLoop_stop _ _ _ _ _ _ h0 h1] at h
  | case5 f o p l rest idx now acc h0 h1 h2 =>
    intro pr h; rwa [matchLoop_frontNone _ _ _ _ _ h0 h1 h2] at h
  | case6 f o p l rest idx now acc h0 h1 maker h2 h3 ih =>
    intro pr h
    rw [matchLoop_popStep _ _ _ _ _ h0 h1 h2 h3] at h
    have hpair := ih pr h
    by_cases hemp : l.pop_front.isEmpty
    · rw [if_pos hemp] at hpair
      rw [restingPairs]
      exact List.mem_append_right _ hpair
    · rw [if_neg hemp] at hpair
      rw [restingPairs] at hpair ⊢
      rcases List.mem_append.mp hpair with hh | hr
      · refine List.mem_append_left _ ?_
        rw [front_some_orders h2]
        simp only [List.map_cons]
        exact List.mem_cons_of_mem _ hh
      · exact List.mem_append_right _ hr
  | case7 f o p l rest idx now acc h0 h1 maker h2 h3 ih =>
    intro pr h
    rw [matchLoop_updateStep _ _ _ _ _ h0 h1 h2 h3] at h
    have hpair := ih pr h
    rw [restingPairs] at hpair ⊢
    rcases List.mem_append.mp hpair with hh | hr
    · refine List.mem_append_left _ ?_
      rw [update_front_orders h2] at hh
      rw [front_some_orders h2]
      simp only [List.map_cons] at hh ⊢
      rcases List.mem_cons.mp hh with h1' | h2'
      · exact h1' ▸ List.mem_cons_self _ _
      · exact List.mem_cons_of_mem _ h2'
    · exact List.mem_append_right _ hr

/-- For a non-market aggressor, every emitted trade's price satisfies the
cross test against the aggressor's limit. -/
theorem matchLoop_trades_price (fuel : Nat) (o : Order) (hb : HalfBook)
    (idx : OrderIndex) (now : Nat) (acc : List TradeEvent) :
    o.is_market = false →
    ∀ t ∈ (matchLoop fuel o hb idx now acc).2.2.2,
      t ∈ acc ∨ priceBreaks o t.price = false := by
  induction fuel, o, hb, idx, now, acc using matchLoop.induct with
  | case1 o hb idx now acc =>
    intro hm t ht; rw [matchLoop_zero] at ht; exact Or.inl ht
  | case2 f o idx now acc =>
    intro hm t ht; rw [matchLoop_nil] at ht; exact Or.inl ht
  | case3 f o p l rest idx now acc h0 =>
    intro hm t ht; rw [matchLoop_qty0 _ _ _ _ _ _ _ h0] at ht; exact Or.inl ht
  | case4 f o p l rest idx now acc h0 h1 =>
    intro hm t ht; rw [matchLoop_stop _ _ _ _ _ _ h0 h1] at ht
    exact Or.inl ht
  | case5 f o p l rest idx now acc h0 h1 h2 =>
    intro hm t ht; rw [matchLoop_frontNone _ _ _ _ _ h0 h1 h2] at ht
    exact Or.inl ht
  | case6 f o p l rest idx now acc h0 h1 maker h2 h3 ih =>
    intro hm t ht
    rw [matchLoop_popStep _ _ _ _ _ h0 h1 h2 h3] at ht
    have hbreak : priceBreaks o p = false := by
      rw [hm] at h1
      simpa using h1
    rcases ih hm t ht with hacc | hp
    · rcases List.mem_append.mp hacc with hold | hnew
      · exact Or.inl hold
      · right
        have : t = ⟨o.id, maker.order.id, p,
            min o.qty maker.remaining_qty, now⟩ := by simpa using hnew
        rw [this]
        exact hbreak
    · exact Or.inr hp
  | case7 f o p l rest idx now acc h0 h1 maker h2 h3 ih =>
    intro hm t ht
    rw [matchLoop_updateStep _ _ _ _ _ h0 h1 h2 h3] at ht
    have hbreak : priceBreaks o p = false := by
      rw [hm] at h1
      simpa using h1
    rcases ih hm t ht with hacc | hp
    · rcases List.mem_append.mp hacc with hold | hnew
      · exact Or.inl hold
      · right
        have : t = ⟨o.id, maker.order.id, p,
            min o.qty maker.remaining_qty, now⟩ := by simpa using hnew
        rw [this]
        exact hbreak
    · exact Or.inr hp

/-! ## C3: market / IOC / FOK residuals never rest -/

/-- **C3.**  For every accepted order of type Market, IOC or FOK, the
unfilled residual is discarded: after `add` returns `true`, the order's id
is absent from the order index and no slot with that id rests at any price
level on either side (only limit orders are ever passed to
`add_resting_order`, so only limit orders rest).  The hypothesis
`SlotsIndexed` (every resting slot's id is indexed) holds of every
reachable book. -/
theorem C3_nonlimit_never_rests (b : Book) (o : Order) (now : Nat)
    (htype : o.type = OrderType.Market ∨ o.type = OrderType.IOC ∨
      o.type = OrderType.FOK)
    (hidx : SlotsIndexed b) (hok : (b.add o now).1 = true) :
    idxFind (b.add o now).2.1.order_index o.id = none ∧
    NoSlotWithId (b.add o now).2.1 o.id := by
  rcases hopt : idxFind b.order_index o.id with _ | loc
  · have hno : NoSlotWithId b o.id := by
      constructor
      · intro pl hpl bo hbo heq
        have := hidx pl (List.mem_append_left _ hpl) bo hbo
        rw [heq, hopt] at this
        simp at this
      · intro pl hpl bo hbo heq
        have := hidx pl (List.mem_append_right _ hpl) bo hbo
        rw [heq, hopt] at this
        simp at this
    have haggr : (o.is_market || o.is_ioc || o.is_fok) = true := by
      rcases htype with h | h | h <;>
        simp [Order.is_market, Order.is_ioc, Order.is_fok, h]
    simp only [Book.add, hopt, Option.isSome_none, Bool.false_eq_true,
      if_false, haggr, if_true] at hok ⊢
    by_cases hfok : (o.is_fok && decide (b.available_qty o < o.qty)) = true
    · rw [if_pos hfok] at hok
      simp at hok
    · rw [if_neg hfok] at hok ⊢
      by_cases hq : (((b.match_order o now []).1.qty = 0 ||
          (b.match_order o now []).1.is_ioc) ||
          (b.match_order o now []).1.is_fok) = true
      · rw [if_pos hq]
        exact match_order_preserves_absent b o now [] o.id hopt hno
      · rw [if_neg hq]
        -- only a market order with residual reaches the resting phase
        have hr1 : (b.match_order o now []).1.type = o.type := by
          have := congrArg Order.type (match_order_fields b o now [])
          simpa using this
        have hmkt : o.type = OrderType.Market := by
          rcases htype with h | h | h
          · exact h
          · exfalso
            apply hq
            simp [Order.is_ioc, hr1, h]
          · exfalso
            apply hq
            simp [Order.is_fok, hr1, h]
        have habs := match_order_preserves_absent b o now [] o.id hopt hno
        have hwc : (b.match_order o now []).2.1.would_cross
            (b.match_order o now []).1 = true := by
          simp [Book.would_cross, Order.is_market, hr1, hmkt]
        simp only [Book.rest_phase, hwc, if_true]
        have habs2 := match_order_preserves_absent
          (b.match_order o now []).2.1 (b.match_order o now []).1 now
          (b.match_order o now []).2.2 o.id habs.1 habs.2
        have hlim : ((b.match_order o now []).2.1.match_order
            (b.match_order o now []).1 now
            (b.match_order o now []).2.2).1.is_limit = false := by
          have := congrArg Order.type (match_order_fields
            (b.match_order o now []).2.1 (b.match_order o now []).1 now
            (b.match_order o now []).2.2)
          simp only [Order.is_limit]
          rw [this]
          simp [hr1, hmkt]
        rw [if_neg (by simp [hlim])]
        exact habs2
  · rw [Book.add] at hok
    simp [hopt] at hok

/-- **C3, witness.**  A market buy for 8 against a lone ask of 5 is
accepted, trades 5, and its residual 3 is discarded: id 3 is indexed
nowhere and rests nowhere. -/
theorem C3_witness :
    ((emptyBook.add ⟨1, Side.Sell, 10000, 5, 0, OrderType.Limit⟩ 0).2.1.add
        ⟨3, Side.Buy, 0, 8, 0, OrderType.Market⟩ 1).1 = true ∧
    idxFind ((emptyBook.add ⟨1, Side.Sell, 10000, 5, 0,
        OrderType.Limit⟩ 0).2.1.add
        ⟨3, Side.Buy, 0, 8, 0, OrderType.Market⟩ 1).2.1.order_index 3 =
      none :=
  ⟨by decide,
   (C3_nonlimit_never_rests
      (emptyBook.add ⟨1, Side.Sell, 10000, 5, 0, OrderType.Limit⟩ 0).2.1
      ⟨3, Side.Buy, 0, 8, 0, OrderType.Market⟩ 1 (Or.inl rfl)
      (by decide) (by decide)).1⟩

/-! ## C6: trades execute at the maker's resting price -/

theorem match_order_trades_pairs (b : Book) (o : Order) (now : Nat)
    (acc : List TradeEvent) :
    ∀ t ∈ (b.match_order o now acc).2.2,
      t ∈ acc ∨ (t.price, t.maker_id) ∈ oppositePairs b o.side := by
  cases hs : o.side <;>
    simp only [Book.match_order, oppositePairs, hs] <;>
    exact matchLoop_trades_pairs _ _ _ _ _ _

theorem match_order_pairs_mono (b : Book) (o : Order) (now : Nat)
    (acc : List TradeEvent) (s : Side) :
    ∀ pr ∈ oppositePairs (b.match_order o now acc).2.1 s,
      pr ∈ oppositePairs b s := by
  cases hs : o.side <;> cases s <;>
    simp only [Book.match_order, oppositePairs, hs] <;>
    first
      | exact matchLoop_pairs_mono _ _ _ _ _ _
      | exact fun pr h => h

theorem match_order_trades_price (b : Book) (o : Order) (now : Nat)
    (acc : List TradeEvent) (hm : o.is_market = false) :
    ∀ t ∈ (b.match_order o now acc).2.2,
      t ∈ acc ∨ priceBreaks o t.price = false := by
  cases hs : o.side <;>
    simp only [Book.match_order, hs] <;>
    exact matchLoop_trades_price _ _ _ _ _ _ hm

/-- **C6.**  Every trade emitted by `add` executes at a price at which its
maker was resting on the side opposite the aggressor (maker prices govern);
and for a limit taker the trade price never betters the taker's limit from
the book's perspective: a buy taker pays at most its limit, a sell taker
receives at least its limit (equality exactly when the taker's limit equals
the resting price). -/
theorem C6_trade_price_maker (b : Book) (o : Order) (now : Nat) :
    ∀ t ∈ (b.add o now).2.2,
      (t.price, t.maker_id) ∈ oppositePairs b o.side ∧
      (o.type = OrderType.Limit →
        (o.side = Side.Buy → t.price ≤ o.price) ∧
        (o.side = Side.Sell → o.price ≤ t.price)) := by
  intro t ht
  by_cases hdup : (idxFind b.order_index o.id).isSome
  · rw [Book.add, if_pos hdup] at ht
    simp at ht
  · rw [Book.add, if_neg hdup] at ht
    by_cases haggr : (o.is_market || o.is_ioc || o.is_fok) = true
    · rw [if_pos haggr] at ht
      have hnl : o.type ≠ OrderType.Limit := by
        intro hl
        rw [Order.is_market, Order.is_ioc, Order.is_fok, hl] at haggr
        simp at haggr
      by_cases hfok : (o.is_fok && decide (b.available_qty o < o.qty)) = true
      · rw [if_pos hfok] at ht
        simp at ht
      · rw [if_neg hfok] at ht
        by_cases hq : (((b.match_order o now []).1.qty = 0 ||
            (b.match_order o now []).1.is_ioc) ||
            (b.match_order o now []).1.is_fok) = true
        · rw [if_pos hq] at ht
          rcases match_order_trades_pairs b o now [] t ht with h | h
          · simp at h
          · exact ⟨h, fun hl => absurd hl hnl⟩
        · rw [if_neg hq] at ht
          simp only [Book.rest_phase] at ht
          refine ⟨?_, fun hl => absurd hl hnl⟩
          have hside : (b.match_order o now []).1.side = o.side := by
            have := congrArg Order.side (match_order_fields b o now [])
            simpa using this
          by_cases hwc : (b.match_order o now []).2.1.would_cross
              (b.match_order o now []).1 = true
          · rw [if_pos hwc] at ht
            rcases match_order_trades_pairs (b.match_order o now []).2.1
                (b.match_order o now []).1 now
                (b.match_order o now []).2.2 t ht with h | h
            · rcases match_order_trades_pairs b o now [] t h with h2 | h2
              · simp at h2
              · exact h2
            · rw [hside] at h
              exact match_order_pairs_mono b o now [] o.side _ h
          · rw [if_neg hwc] at ht
            rcases match_order_trades_pairs b o now [] t ht with h | h
            · simp at h
            · exact h
    · rw [if_neg haggr] at ht
      have hlim : o.type = OrderType.Limit := by
        cases hty : o.type
        · rfl
        all_goals
          exfalso
          apply haggr
          simp [Order.is_market, Order.is_ioc, Order.is_fok, hty]
      have hm : o.is_market = false := by simp [Order.is_market, hlim]
      simp only [Book.rest_phase] at ht
      by_cases hwc : b.would_cross o = true
      · rw [if_pos hwc] at ht
        have hpair : (t.price, t.maker_id) ∈ oppositePairs b o.side := by
          rcases match_order_trades_pairs b o now [] t ht with h | h
          · simp at h
          · exact h
        refine ⟨hpair, fun _ => ⟨fun hbuy => ?_, fun hsell => ?_⟩⟩
        · rcases match_order_trades_price b o now [] hm t ht with h | h
          · simp at h
          · rw [priceBreaks, hbuy] at h
            simpa using h
        · rcases match_order_trades_price b o now [] hm t ht with h | h
          · simp at h
          · rw [priceBreaks, hsell] at h
            simpa using h
      · rw [if_neg hwc] at ht
        simp at ht

/-- **C6, witness.**  A buy limit at 10100 lifting a lone ask resting at
10000 trades at the maker's price 10000, below the taker's limit. -/
theorem C6_witness :
    (((10000 : Int), 1) ∈ oppositePairs
      (emptyBook.add ⟨1, Side.Sell, 10000, 5, 0, OrderType.Limit⟩ 0).2.1
      Side.Buy) ∧ (10000 : Int) ≤ 10100 := by
  have h := C6_trade_price_maker
    (emptyBook.add ⟨1, Side.Sell, 10000, 5, 0, OrderType.Limit⟩ 0).2.1
    ⟨2, Side.Buy, 10100, 5, 0, OrderType.Limit⟩ 1
    ⟨2, 1, 10000, 5, 1⟩ (by decide)
  exact ⟨h.1, (h.2 rfl).1 rfl⟩

/-! ## C1: FOK is all-or-nothing -/

theorem sumQty_append (a : List TradeEvent) (t : TradeEvent) :
    sumQty (a ++ [t]) = sumQty a + t.qty := by
  simp [sumQty]

/-- Quantity conservation: emitted trade quantity plus the aggressor's
residual equals the accumulator's quantity plus the incoming quantity. -/
theorem matchLoop_sum (fuel : Nat) (o : Order) (hb : HalfBook)
    (idx : OrderIndex) (now : Nat) (acc : List TradeEvent) :
    sumQty (matchLoop fuel o hb idx now acc).2.2.2 +
      (matchLoop fuel o hb idx now acc).1.qty = sumQty acc + o.qty := by
  induction fuel, o, hb, idx, now, acc using matchLoop.induct with
  | case1 o hb idx now acc => rw [matchLoop_zero]
  | case2 f o idx now acc => rw [matchLoop_nil]
  | case3 f o p l rest idx now acc h0 => rw [matchLoop_qty0 _ _ _ _ _ _ _ h0]
  | case4 f o p l rest idx now acc h0 h1 =>
    rw [matchLoop_stop _ _ _ _ _ _ h0 h1]
  | case5 f o p l rest idx now acc h0 h1 h2 =>
    rw [matchLoop_frontNone _ _ _ _ _ h0 h1 h2]
  | case6 f o p l rest idx now acc h0 h1 maker h2 h3 ih =>
    rw [matchLoop_popStep _ _ _ _ _ h0 h1 h2 h3]
    rw [sumQty_append] at ih
    have hmin : min o.qty maker.remaining_qty ≤ o.qty := Nat.min_le_left _ _
    simp only at ih ⊢
    omega
  | case7 f o p l rest idx now acc h0 h1 maker h2 h3 ih =>
    rw [matchLoop_updateStep _ _ _ _ _ h0 h1 h2 h3]
    rw [sumQty_append] at ih
    have hmin : min o.qty maker.remaining_qty ≤ o.qty := Nat.min_le_left _ _
    simp only at ih ⊢
    omega

/-- The admissible liquidity seen by an aggressor does not depend on its
quantity. -/
theorem admissibleLiq_qty_irrel (o : Order) (n : Nat) :
    ∀ hb, admissibleLiq { o with qty := n } hb = admissibleLiq o hb := by
  intro hb
  induction hb with
  | nil => rfl
  | cons head rest ih =>
    obtain ⟨p, l⟩ := head
    rw [admissibleLiq, admissibleLiq, ih]
    rfl

/-- Completeness of the matching loop: with consistent level totals, no
empty levels, and enough admissible liquidity, the aggressor is fully
filled (given sufficient fuel). -/
theorem matchLoop_fills (fuel : Nat) (o : Order) (hb : HalfBook)
    (idx : OrderIndex) (now : Nat) (acc : List TradeEvent) :
    TotalsOKHalf hb → NoEmptyHalf hb → o.qty ≤ admissibleLiq o hb →
    o.qty + countOrders hb < fuel →
    (matchLoop fuel o hb idx now acc).1.qty = 0 := by
  induction fuel, o, hb, idx, now, acc using matchLoop.induct with
  | case1 o hb idx now acc => intro _ _ _ hf; omega
  | case2 f o idx now acc =>
    intro _ _ hadm _
    rw [matchLoop_nil]
    rw [admissibleLiq] at hadm
    show o.qty = 0
    omega
  | case3 f o p l rest idx now acc h0 =>
    intro _ _ _ _
    rw [matchLoop_qty0 _ _ _ _ _ _ _ h0]
    exact h0
  | case4 f o p l rest idx now acc h0 h1 =>
    intro _ _ hadm _
    exfalso
    rw [admissibleLiq] at hadm
    rw [if_pos ?hcond] at hadm
    · omega
    case hcond =>
      rcases Bool.and_eq_true_iff.mp h1 with ⟨hm, hbrk⟩
      rw [hbrk]
      simp only [Bool.true_and]
      simpa using hm
  | case5 f o p l rest idx now acc h0 h1 h2 =>
    intro _ hne _ _
    exfalso
    have := hne (p, l) (List.mem_cons_self _ _)
    apply this
    rw [BookLevel.front] at h2
    exact List.head?_eq_none_iff.mp h2
  | case6 f o p l rest idx now acc h0 h1 maker h2 h3 ih =>
    intro htot hne hadm hf
    rw [matchLoop_popStep _ _ _ _ _ h0 h1 h2 h3]
    -- the fill equals the maker's full remaining quantity
    have hfill : min o.qty maker.remaining_qty = maker.remaining_qty := by
      have := Nat.min_le_right o.qty maker.remaining_qty
      omega
    have hcond : (priceBreaks o p && !o.is_market) = false := by
      rcases hmk : o.is_market with _ | _
      · rcases hbr : priceBreaks o p with _ | _
        · simp [hbr, hmk]
        · exfalso
          apply h1
          simp [hbr, hmk]
      · simp [hmk]
    have hsum : l.total_qty = (l.orders.map BookOrder.remaining_qty).sum :=
      htot (p, l) (List.mem_cons_self _ _)
    have hdecomp := front_some_orders h2
    have hadm' : admissibleLiq o ((p, l) :: rest) =
        maker.remaining_qty +
        ((l.pop_front.orders.map BookOrder.remaining_qty).sum +
          admissibleLiq o rest) := by
      rw [admissibleLiq, if_neg (by rw [hcond]; simp)]
      rw [hdecomp]
      simp [Nat.add_assoc]
    apply ih
    · intro pl hpl
      by_cases hemp : l.pop_front.isEmpty
      · rw [if_pos hemp] at hpl
        exact htot pl (List.mem_cons_of_mem _ hpl)
      · rw [if_neg hemp] at hpl
        rcases List.mem_cons.mp hpl with heq | hmem
        · subst heq
          simp only
          have : l.pop_front.total_qty = l.total_qty - maker.remaining_qty := by
            rcases hl : l.orders with _ | ⟨bo, tl⟩
            · rw [hl] at hdecomp
              cases hdecomp
            · rw [hl] at hdecomp
              rw [BookLevel.pop_front, hl]
              cases hdecomp
              rfl
          rw [this, hsum, hdecomp]
          simp
        · exact htot pl (List.mem_cons_of_mem _ hmem)
    · intro pl hpl
      by_cases hemp : l.pop_front.isEmpty
      · rw [if_pos hemp] at hpl
        exact hne pl (List.mem_cons_of_mem _ hpl)
      · rw [if_neg hemp] at hpl
        rcases List.mem_cons.mp hpl with heq | hmem
        · subst heq
          simpa [BookLevel.isEmpty, List.isEmpty_iff] using hemp
        · exact hne pl (List.mem_cons_of_mem _ hmem)
    · rw [admissibleLiq_qty_irrel]
      simp only
      rw [hadm'] at hadm
      by_cases hemp : l.pop_front.isEmpty
      · rw [if_pos hemp]
        have : l.pop_front.orders = [] := List.isEmpty_iff.mp hemp
        rw [this] at hadm
        simp at hadm
        omega
      · rw [if_neg hemp, admissibleLiq, if_neg (by rw [hcond]; simp)]
        omega
    · have hcnt := countOrders_pop h2 p rest
      simp only
      omega
  | case7 f o p l rest idx now acc h0 h1 maker h2 h3 ih =>
    intro htot hne hadm hf
    rw [matchLoop_updateStep _ _ _ _ _ h0 h1 h2 h3]
    have hfz := update_branch_fill h3
    -- the aggressor is fully consumed by this fill; the next iteration
    -- terminates immediately with quantity zero
    have hq0 : ({ o with qty := o.qty - min o.qty maker.remaining_qty } :
        Order).qty = 0 := hfz
    rcases hfuel : f with _ | g
    · rw [matchLoop_zero]
      exact hq0
    · rcases hb2 : ((p, l.update_front_qty
          (maker.remaining_qty - min o.qty maker.remaining_qty)) :: rest) with
        _ | ⟨hd, tl⟩
      · cases hb2
      · rw [matchLoop_qty0 _ _ _ _ _ _ _ hq0]
        exact hq0

/-- Book-level: matching fully fills an order backed by enough admissible
liquidity on the opposite side. -/
theorem match_order_fills (b : Book) (o : Order) (now : Nat)
    (htot : TotalsOK b) (hne : NoEmptyLevels b)
    (hadm : (o.side = Side.Buy → o.qty ≤ admissibleLiq o b.asks) ∧
            (o.side = Side.Sell → o.qty ≤ admissibleLiq o b.bids)) :
    (b.match_order o now []).1.qty = 0 := by
  cases hs : o.side <;> simp only [Book.match_order, hs]
  · exact matchLoop_fills _ _ _ _ _ _ htot.2 hne.2 (hadm.1 hs) (by omega)
  · exact matchLoop_fills _ _ _ _ _ _ htot.1 hne.1 (hadm.2 hs) (by omega)

/-- The pre-scan reaches the order's quantity iff the admissible liquidity
covers it. -/
theorem available_scan_ge (o : Order) :
    ∀ (hb : HalfBook) (acc : Nat), TotalsOKHalf hb →
      (o.qty ≤ available_scan o hb acc ↔ o.qty ≤ acc + admissibleLiq o hb) := by
  intro hb
  induction hb with
  | nil =>
    intro acc _
    rw [available_scan, admissibleLiq]
    omega
  | cons head rest ih =>
    intro acc htot
    obtain ⟨p, l⟩ := head
    have hsum : l.total_qty = (l.orders.map BookOrder.remaining_qty).sum :=
      htot (p, l) (List.mem_cons_self _ _)
    rw [available_scan, admissibleLiq]
    by_cases hcond : (priceBreaks o p && !o.is_market) = true
    · rw [if_pos hcond, if_pos hcond]
      omega
    · rw [if_neg hcond, if_neg hcond]
      by_cases hge : acc + l.total_qty ≥ o.qty
      · rw [if_pos hge]
        constructor
        · intro _
          rw [← hsum]
          omega
        · intro _
          omega
      · rw [if_neg hge]
        have := ih (acc + l.total_qty)
          (fun pl hpl => htot pl (List.mem_cons_of_mem _ hpl))
        rw [this]
        rw [hsum]
        omega

/-- **C1.**  A FOK order whose id is not already indexed has exactly two
outcomes on a well-formed book (consistent level totals, no empty levels):
accepted with trades summing to exactly its full quantity (no residual ever
rests — FOK never reaches the resting phase), or rejected with the book
bit-for-bit unchanged and no trades. -/
theorem C1_fok_all_or_nothing (b : Book) (o : Order) (now : Nat)
    (hfok : o.type = OrderType.FOK)
    (hfresh : idxFind b.order_index o.id = none)
    (htot : TotalsOK b) (hne : NoEmptyLevels b) :
    ((b.add o now).1 = true ∧ sumQty (b.add o now).2.2 = o.qty) ∨
    ((b.add o now).1 = false ∧ (b.add o now).2.1 = b ∧
      (b.add o now).2.2 = []) := by
  have hisfok : o.is_fok = true := by simp [Order.is_fok, hfok]
  have haggr : (o.is_market || o.is_ioc || o.is_fok) = true := by
    simp [hisfok]
  rw [Book.add, if_neg (by rw [hfresh]; simp), if_pos haggr]
  by_cases hav : (o.is_fok && decide (b.available_qty o < o.qty)) = true
  · rw [if_pos hav]
    right
    exact ⟨rfl, rfl, rfl⟩
  · rw [if_neg hav]
    have hge : ¬ b.available_qty o < o.qty := by
      intro hlt
      exact hav (by simp [hisfok, hlt])
    have hq : (((b.match_order o now []).1.qty = 0 ||
        (b.match_order o now []).1.is_ioc) ||
        (b.match_order o now []).1.is_fok) = true := by
      have : (b.match_order o now []).1.is_fok = true := by
        have := congrArg Order.type (match_order_fields b o now [])
        simp only [Order.is_fok] at hisfok ⊢
        rw [this]
        simpa using hisfok
      simp [this]
    rw [if_pos hq]
    left
    refine ⟨rfl, ?_⟩
    have hfills : (b.match_order o now []).1.qty = 0 := by
      apply match_order_fills b o now htot hne
      constructor
      · intro hs
        have := (available_scan_ge o b.asks 0 htot.2).mp
          (by
            simp only [Book.available_qty, hs] at hge
            omega)
        simpa using this
      · intro hs
        have := (available_scan_ge o b.bids 0 htot.1).mp
          (by
            simp only [Book.available_qty, hs] at hge
            omega)
        simpa using this
    have hsum : sumQty (b.match_order o now []).2.2 +
        (b.match_order o now []).1.qty = sumQty [] + o.qty := by
      cases hs : o.side <;> simp only [Book.match_order, hs] <;>
        exact matchLoop_sum _ _ _ _ _ _
    rw [hfills] at hsum
    simpa [sumQty] using hsum

/-- **C1, witness.**  Against a lone ask of 5, a FOK buy of 5 succeeds and
trades exactly 5; (S5 of the spec: a FOK buy of 10 against the same book is
rejected and the book is unchanged — also an instance of the theorem). -/
theorem C1_witness :
    (((emptyBook.add ⟨1, Side.Sell, 10000, 5, 0, OrderType.Limit⟩ 0).2.1.add
        ⟨2, Side.Buy, 10000, 5, 0, OrderType.FOK⟩ 1).1 = true ∧
      sumQty ((emptyBook.add ⟨1, Side.Sell, 10000, 5, 0,
          OrderType.Limit⟩ 0).2.1.add
        ⟨2, Side.Buy, 10000, 5, 0, OrderType.FOK⟩ 1).2.2 = 5) ∨
    (((emptyBook.add ⟨1, Side.Sell, 10000, 5, 0, OrderType.Limit⟩ 0).2.1.add
        ⟨2, Side.Buy, 10000, 5, 0, OrderType.FOK⟩ 1).1 = false ∧
      ((emptyBook.add ⟨1, Side.Sell, 10000, 5, 0, OrderType.Limit⟩ 0).2.1.add
        ⟨2, Side.Buy, 10000, 5, 0, OrderType.FOK⟩ 1).2.1 =
        (emptyBook.add ⟨1, Side.Sell, 10000, 5, 0, OrderType.Limit⟩ 0).2.1 ∧
      ((emptyBook.add ⟨1, Side.Sell, 10000, 5, 0, OrderType.Limit⟩ 0).2.1.add
        ⟨2, Side.Buy, 10000, 5, 0, OrderType.FOK⟩ 1).2.2 = []) :=
  C1_fok_all_or_nothing
    (emptyBook.add ⟨1, Side.Sell, 10000, 5, 0, OrderType.Limit⟩ 0).2.1
    ⟨2, Side.Buy, 10000, 5, 0, OrderType.FOK⟩ 1 rfl (by decide) (by decide)
    (by decide)

/-! ## C7: submit-then-cancel round trip -/

theorem idxInsert_find_self (idx : OrderIndex) (id : Nat)
    (loc : OrderLocation) : idxFind (idxInsert idx id loc) id = some loc := by
  induction idx with
  | nil => simp [idxInsert, idxFind]
  | cons head rest ih =>
    rw [idxInsert]
    by_cases hk : id = head.1
    · rw [if_pos hk, idxFind, if_pos hk]
    · rw [if_neg hk, idxFind, if_neg hk]
      exact ih

theorem idxErase_insert_fresh {idx : OrderIndex} {id : Nat}
    (loc : OrderLocation) (h : idxFind idx id = none) :
    idxErase (idxInsert idx id loc) id = idx := by
  induction idx with
  | nil => simp [idxInsert, idxErase]
  | cons head rest ih =>
    rw [idxFind] at h
    by_cases hk : id = head.1
    · rw [if_pos hk] at h
      cases h
    · rw [if_neg hk] at h
      rw [idxInsert, if_neg hk, idxErase, if_neg hk, ih h]

/-- Removing a freshly appended slot from a queue with no other slot of
that id pops exactly the appended slot. -/
theorem removeFromQueue_append {id : Nat} {bo : BookOrder}
    (hid : bo.order.id = id) :
    ∀ queue : List BookOrder, (∀ x ∈ queue, x.order.id ≠ id) →
      BookLevel.removeFromQueue id (queue ++ [bo]) =
        some (queue, bo.remaining_qty) := by
  intro queue
  induction queue with
  | nil =>
    intro _
    simp [BookLevel.removeFromQueue, hid]
  | cons x rest ih =>
    intro hno
    rw [List.cons_append, BookLevel.removeFromQueue,
      if_neg (hno x (List.mem_cons_self _ _)),
      ih (fun y hy => hno y (List.mem_cons_of_mem _ hy))]

/-- `removeSlotFromHalf` skips over levels at other prices. -/
theorem removeSlot_cons_ne {p q : Int} (hpq : p ≠ q) (l : BookLevel)
    (X : HalfBook) (id : Nat) :
    Book.removeSlotFromHalf ((q, l) :: X) p id =
      ((q, l) :: (Book.removeSlotFromHalf X p id).1,
       (Book.removeSlotFromHalf X p id).2) := by
  rw [Book.removeSlotFromHalf, Book.removeSlotFromHalf, hbFind, if_neg hpq]
  rcases hf : hbFind X p with _ | lvl <;> simp only [hf]
  · rcases hrm : lvl.remove_order id with _ | pr <;> simp only [hrm]
    · by_cases hemp : lvl.isEmpty
      · rw [if_pos hemp, if_pos hemp, hbErase, if_neg hpq]
      · rw [if_neg hemp, if_neg hemp]
    · obtain ⟨level', qn⟩ := pr
      by_cases hemp : level'.isEmpty
      · rw [if_pos hemp, if_pos hemp, hbErase, if_neg hpq]
      · rw [if_neg hemp, if_neg hemp, hbUpdate, if_neg hpq]

/-- Unfolding `remove_order` through a known queue-removal result. -/
theorem remove_order_of_queue {l : BookLevel} {id : Nat}
    {q : List BookOrder} {n : Nat}
    (h : BookLevel.removeFromQueue id l.orders = some (q, n)) :
    l.remove_order id = some (⟨q, l.total_qty - n⟩, n) := by
  unfold BookLevel.remove_order
  rw [h]

/-- Cancelling the just-rested slot from one side undoes the insertion
exactly, handing back its remaining quantity. -/
theorem removeSlot_after_insert (before : Int → Int → Bool) :
    ∀ (hb : HalfBook) (p : Int) (bo : BookOrder) (id : Nat),
      bo.order.id = id → NoEmptyHalf hb →
      (∀ pl ∈ hb, ∀ x ∈ pl.2.orders, x.order.id ≠ id) →
      Book.removeSlotFromHalf (hbAddOrder before hb p bo) p id =
        (hb, bo.remaining_qty) := by
  intro hb
  induction hb with
  | nil =>
    intro p bo id hid _ _
    simp [hbAddOrder, Book.removeSlotFromHalf, hbFind,
      BookLevel.remove_order, BookLevel.removeFromQueue, hid,
      BookLevel.emptyLevel, BookLevel.add_order, BookLevel.isEmpty, hbErase]
  | cons head rest ih =>
    intro p bo id hid hne hnos
    obtain ⟨q, l⟩ := head
    by_cases hpq : p = q
    · subst hpq
      rw [hbAddOrder, if_pos rfl]
      have hq : BookLevel.removeFromQueue id (l.orders ++ [bo]) =
          some (l.orders, bo.remaining_qty) :=
        removeFromQueue_append hid l.orders
          (fun x hx => hnos (p, l) (List.mem_cons_self _ _) x hx)
      have hfind : hbFind ((p, l.add_order bo) :: rest) p =
          some (l.add_order bo) := by rw [hbFind, if_pos rfl]
      have hro : (l.add_order bo).remove_order id =
          some (⟨l.orders, (l.add_order bo).total_qty - bo.remaining_qty⟩,
            bo.remaining_qty) :=
        remove_order_of_queue (by simpa [BookLevel.add_order] using hq)
      simp only [Book.removeSlotFromHalf, hfind, hro]
      simp only [BookLevel.add_order]
      have htq : l.total_qty + bo.remaining_qty - bo.remaining_qty =
          l.total_qty := by omega
      rw [htq]
      have hlv : (⟨l.orders, l.total_qty⟩ : BookLevel) = l := rfl
      rw [hlv]
      have hemp : l.isEmpty = false := by
        have := hne (p, l) (List.mem_cons_self _ _)
        simpa [BookLevel.isEmpty, List.isEmpty_iff] using this
      rw [if_neg (by rw [hemp]; simp)]
      rw [hbUpdate, if_pos rfl]
    · rw [hbAddOrder, if_neg hpq]
      by_cases hbef : before p q = true
      · rw [if_pos hbef]
        simp [Book.removeSlotFromHalf, hbFind,
          BookLevel.remove_order, BookLevel.removeFromQueue, hid,
          BookLevel.emptyLevel, BookLevel.add_order, BookLevel.isEmpty,
          hbErase]
      · rw [if_neg hbef]
        rw [removeSlot_cons_ne hpq]
        rw [ih p bo id hid (fun pl hpl => hne pl (List.mem_cons_of_mem _ hpl))
          (fun pl hpl => hnos pl (List.mem_cons_of_mem _ hpl))]

/-- **C7, counterexample.**  The round-trip law fails for an order that
trades on entry: submitting a buy that fully crosses a resting ask and then
cancelling it leaves the ask side emptied, not the prior book. -/
theorem C7_roundtrip_counterexample :
    (((emptyBook.add ⟨1, Side.Sell, 10000, 5, 0, OrderType.Limit⟩ 0).2.1.add
        ⟨2, Side.Buy, 10000, 5, 0, OrderType.Limit⟩ 1).2.1.cancel 2).2.1 ≠
      (emptyBook.add ⟨1, Side.Sell, 10000, 5, 0, OrderType.Limit⟩ 0).2.1 := by
  decide

/-- **C7, amended.**  The round trip `submit(o); cancel(o.id)` restores the
book exactly — bids, asks, order index — for a *limit* order with a fresh
id (not indexed, no resting slot with that id) that does *not* cross the
book, on a book with no empty levels.  The unrestricted claim is false:
an order that trades consumes opposite liquidity the cancel cannot restore
(see the counterexample), and a duplicate-id submit makes the cancel remove
the older resting order. -/
theorem C7_roundtrip_amended (b : Book) (o : Order) (now : Nat)
    (hlim : o.type = OrderType.Limit)
    (hfresh : idxFind b.order_index o.id = none)
    (hnos : NoSlotWithId b o.id) (hne : NoEmptyLevels b)
    (hwc : b.would_cross o = false) :
    ((b.add o now).2.1.cancel o.id).2.1 = b := by
  have haggr : (o.is_market || o.is_ioc || o.is_fok) = false := by
    simp [Order.is_market, Order.is_ioc, Order.is_fok, hlim]
  have hislim : o.is_limit = true := by simp [Order.is_limit, hlim]
  rw [Book.add, if_neg (by rw [hfresh]; simp), if_neg (by rw [haggr]; simp)]
  simp only [Book.rest_phase, hwc, Bool.false_eq_true, if_false]
  by_cases hq0 : o.qty = 0
  · rw [if_neg (by rw [hq0]; simp)]
    rw [Book.cancel, hfresh]
  · rw [if_pos (by rw [hislim]; simp; omega)]
    obtain ⟨bids, asks, idx⟩ := b
    cases hs : o.side
    · -- buy: slot inserted into the bids
      simp only [Book.add_resting_order, hs]
      rw [Book.cancel]
      simp only [idxInsert_find_self]
      rw [removeSlot_after_insert bidBefore bids o.price (mkBookOrder o)
        o.id rfl hne.1 (fun pl hpl x hx => hnos.1 pl hpl x hx)]
      rw [idxErase_insert_fresh _ hfresh]
    · -- sell: slot inserted into the asks
      simp only [Book.add_resting_order, hs]
      rw [Book.cancel]
      simp only [idxInsert_find_self]
      rw [removeSlot_after_insert askBefore asks o.price (mkBookOrder o)
        o.id rfl hne.2 (fun pl hpl x hx => hnos.2 pl hpl x hx)]
      rw [idxErase_insert_fresh _ hfresh]

/-- **C7, witness.**  Resting a non-crossing buy at 9900 under a lone ask
at 10000 and cancelling it restores the book exactly. -/
theorem C7_witness :
    (((emptyBook.add ⟨1, Side.Sell, 10000, 5, 0, OrderType.Limit⟩ 0).2.1.add
        ⟨2, Side.Buy, 9900, 7, 0, OrderType.Limit⟩ 1).2.1.cancel 2).2.1 =
      (emptyBook.add ⟨1, Side.Sell, 10000, 5, 0, OrderType.Limit⟩ 0).2.1 :=
  C7_roundtrip_amended
    (emptyBook.add ⟨1, Side.Sell, 10000, 5, 0, OrderType.Limit⟩ 0).2.1
    ⟨2, Side.Buy, 9900, 7, 0, OrderType.Limit⟩ 1 rfl (by decide)
    (by decide) (by decide) (by decide)

/-! ## C5: FIFO priority within a level -/

/-- The trade accumulator is a pure prefix: the loop's other outputs do not
depend on it. -/
theorem matchLoop_acc :
    ∀ (fuel : Nat) (o : Order) (hb : HalfBook) (idx : OrderIndex)
      (now : Nat) (dummy acc : List TradeEvent),
      matchLoop fuel o hb idx now acc =
        ((matchLoop fuel o hb idx now []).1,
         (matchLoop fuel o hb idx now []).2.1,
         (matchLoop fuel o hb idx now []).2.2.1,
         acc ++ (matchLoop fuel o hb idx now []).2.2.2) := by
  intro fuel o hb idx now dummy
  induction fuel, o, hb, idx, now, dummy using matchLoop.induct with
  | case1 o hb idx now dummy =>
    intro acc
    rw [matchLoop_zero, matchLoop_zero]
    simp
  | case2 f o idx now dummy =>
    intro acc
    rw [matchLoop_nil, matchLoop_nil]
    simp
  | case3 f o p l rest idx now dummy h0 =>
    intro acc
    rw [matchLoop_qty0 _ _ _ _ _ _ _ h0, matchLoop_qty0 _ _ _ _ _ _ _ h0]
    simp
  | case4 f o p l rest idx now dummy h0 h1 =>
    intro acc
    rw [matchLoop_stop _ _ _ _ _ _ h0 h1, matchLoop_stop _ _ _ _ _ _ h0 h1]
    simp
  | case5 f o p l rest idx now dummy h0 h1 h2 =>
    intro acc
    rw [matchLoop_frontNone _ _ _ _ _ h0 h1 h2,
      matchLoop_frontNone _ _ _ _ _ h0 h1 h2]
    simp
  | case6 f o p l rest idx now dummy h0 h1 maker h2 h3 ih =>
    intro acc
    rw [matchLoop_popStep _ _ _ _ _ h0 h1 h2 h3,
      matchLoop_popStep _ _ _ _ _ h0 h1 h2 h3]
    have e2 := ih ([] ++ [(⟨o.id, maker.order.id, p,
      min o.qty maker.remaining_qty, now⟩ : TradeEvent)])
    rw [ih]
    rw [e2]
    simp
  | case7 f o p l rest idx now dummy h0 h1 maker h2 h3 ih =>
    intro acc
    rw [matchLoop_updateStep _ _ _ _ _ h0 h1 h2 h3,
      matchLoop_updateStep _ _ _ _ _ h0 h1 h2 h3]
    have e2 := ih ([] ++ [(⟨o.id, maker.order.id, p,
      min o.qty maker.remaining_qty, now⟩ : TradeEvent)])
    rw [ih]
    rw [e2]
    simp

/-- A spent aggressor emits nothing. -/
theorem matchLoop_spent {o : Order} (fuel : Nat) (hb : HalfBook)
    (idx : OrderIndex) (now : Nat) (acc : List TradeEvent)
    (h : o.qty = 0) : (matchLoop fuel o hb idx now acc).2.2.2 = acc := by
  cases fuel with
  | zero => rw [matchLoop_zero]
  | succ f =>
    cases hb with
    | nil => rw [matchLoop_nil]
    | cons head rest =>
      obtain ⟨p, l⟩ := head
      rw [matchLoop_qty0 _ _ _ _ _ _ _ h]

theorem restingIds_cons (p : Int) (l : BookLevel) (rest : HalfBook) :
    restingIds ((p, l) :: rest) =
      l.orders.map (fun bo => bo.order.id) ++ restingIds rest := rfl

/-- The resting ids after popping a fully-filled front maker are the tail
of the original ids. -/
theorem restingIds_pop {l : BookLevel} {maker : BookOrder}
    (h : l.front = some maker) (p : Int) (rest : HalfBook) :
    restingIds ((p, l) :: rest) =
      maker.order.id :: restingIds
        (if l.pop_front.isEmpty then rest else (p, l.pop_front) :: rest) := by
  by_cases hemp : l.pop_front.isEmpty
  · rw [if_pos hemp, restingIds_cons, front_some_orders h,
      List.isEmpty_iff.mp hemp]
    simp
  · rw [if_neg hemp, restingIds_cons, restingIds_cons, front_some_orders h]
    simp

theorem restingIds_update {l : BookLevel} {maker : BookOrder}
    (h : l.front = some maker) (n : Nat) (p : Int) (rest : HalfBook) :
    restingIds ((p, l.update_front_qty n) :: rest) =
      restingIds ((p, l) :: rest) := by
  rw [restingIds_cons, restingIds_cons, update_front_orders h,
    front_some_orders h]
  simp

theorem mem_restingIds {hb : HalfBook} {p : Int} {L : BookLevel}
    {bo : BookOrder} (hmem : (p, L) ∈ hb) (hbo : bo ∈ L.orders) :
    bo.order.id ∈ restingIds hb := by
  induction hb with
  | nil => cases hmem
  | cons head rest ih =>
    obtain ⟨q, l⟩ := head
    rw [restingIds_cons]
    rcases List.mem_cons.mp hmem with heq | hmem'
    · cases heq
      exact List.mem_append_left _ (List.mem_map_of_mem _ hbo)
    · exact List.mem_append_right _ (ih hmem')

theorem sumQtyOf_cons_ne {id : Nat} {t : TradeEvent}
    (h : t.maker_id ≠ id) (tr : List TradeEvent) :
    sumQtyOf id (t :: tr) = sumQtyOf id tr := by
  simp [sumQtyOf, List.filter_cons, h]

theorem sumQtyOf_single_eq {id : Nat} {t : TradeEvent}
    (h : t.maker_id = id) : sumQtyOf id [t] = t.qty := by
  simp [sumQtyOf, List.filter_cons, h, sumQty]

/-- Two distinct queue positions carry distinct ids when the queue's ids
are distinct. -/
theorem nodup_queue_ne {L : BookLevel}
    (hnodup : (L.orders.map (fun bo => bo.order.id)).Nodup)
    {pre mid post : List BookOrder} {boA boC : BookOrder}
    (horders : L.orders = pre ++ boA :: (mid ++ boC :: post)) :
    boA.order.id ≠ boC.order.id := by
  rw [horders, List.map_append, List.map_cons] at hnodup
  have h2 := hnodup.of_append_right
  have h3 := (List.nodup_cons.mp h2).1
  intro heq
  apply h3
  rw [heq]
  exact List.mem_map.mpr ⟨boC, by simp, rfl⟩

/-- The queue's front is distinct from both later positions. -/
theorem nodup_queue_head_ne {L : BookLevel}
    (hnodup : (L.orders.map (fun bo => bo.order.id)).Nodup)
    {x : BookOrder} {pre' mid post : List BookOrder} {boA boC : BookOrder}
    (horders : L.orders = x :: (pre' ++ boA :: (mid ++ boC :: post))) :
    x.order.id ≠ boA.order.id ∧ x.order.id ≠ boC.order.id := by
  rw [horders, List.map_cons] at hnodup
  have h1 := (List.nodup_cons.mp hnodup).1
  constructor
  · intro heq
    apply h1
    rw [heq]
    exact List.mem_map.mpr ⟨boA, by simp, rfl⟩
  · intro heq
    apply h1
    rw [heq]
    exact List.mem_map.mpr ⟨boC, by simp, rfl⟩

/-- Ids on the head level are distinct from ids on later levels. -/
theorem nodup_cross_ne {hp : Int} {hl : BookLevel} {rest : HalfBook}
    (hnodup : (restingIds ((hp, hl) :: rest)).Nodup)
    {maker : BookOrder} (hmk : maker ∈ hl.orders)
    {p : Int} {L : BookLevel} {bo : BookOrder}
    (hmem : (p, L) ∈ rest) (hbo : bo ∈ L.orders) :
    maker.order.id ≠ bo.order.id := by
  rw [restingIds_cons] at hnodup
  have hdisj := (List.nodup_append.mp hnodup).2.2
  intro heq
  exact hdisj (List.mem_map_of_mem _ hmk) (heq ▸ mem_restingIds hmem hbo)

/-- Every emitted trade's maker id was resting on the matched side. -/
theorem matchLoop_makers (fuel : Nat) (o : Order) (hb : HalfBook)
    (idx : OrderIndex) (now : Nat) (acc : List TradeEvent) :
    ∀ t ∈ (matchLoop fuel o hb idx now acc).2.2.2,
      t ∈ acc ∨ t.maker_id ∈ restingIds hb := by
  intro t ht
  rcases matchLoop_trades_pairs fuel o hb idx now acc t ht with h | h
  · exact Or.inl h
  · right
    clear ht
    induction hb with
    | nil => cases h
    | cons head rest ih =>
      obtain ⟨q, l⟩ := head
      rw [restingPairs] at h
      rw [restingIds_cons]
      rcases List.mem_append.mp h with hh | hr
      · obtain ⟨bo, hbo, heq⟩ := List.mem_map.mp hh
        refine List.mem_append_left _ (List.mem_map.mpr ⟨bo, hbo, ?_⟩)
        have : bo.order.id = t.maker_id := congrArg Prod.snd heq
        exact this
      · exact List.mem_append_right _ (ih hr)

/-- **FIFO at the loop level.**  If the matching loop ever trades against a
later queue member `boC` of some level, then the trade list splits into a
prefix that fully fills the earlier member `boA` (its credited quantity is
exactly its resting remainder) without touching `boC`, followed by trades
that never touch `boA` again. -/
theorem matchLoop_fifo :
    ∀ (fuel : Nat) (o : Order) (hb : HalfBook) (idx : OrderIndex)
      (now : Nat) (dummy : List TradeEvent),
      (restingIds hb).Nodup →
      ∀ (p : Int) (L : BookLevel) (pre mid post : List BookOrder)
        (boA boC : BookOrder),
        (p, L) ∈ hb →
        L.orders = pre ++ boA :: (mid ++ boC :: post) →
        (∃ t ∈ (matchLoop fuel o hb idx now []).2.2.2,
          t.maker_id = boC.order.id) →
        ∃ tr1 tr2,
          (matchLoop fuel o hb idx now []).2.2.2 = tr1 ++ tr2 ∧
          sumQtyOf boA.order.id tr1 = boA.remaining_qty ∧
          (∀ t ∈ tr1, t.maker_id ≠ boC.order.id) ∧
          (∀ t ∈ tr2, t.maker_id ≠ boA.order.id) := by
  intro fuel o hb idx now dummy
  induction fuel, o, hb, idx, now, dummy using matchLoop.induct with
  | case1 o hb idx now dummy =>
    intro _ p L pre mid post boA boC _ _ hC
    rw [matchLoop_zero] at hC
    obtain ⟨t, ht, _⟩ := hC
    cases ht
  | case2 f o idx now dummy =>
    intro _ p L pre mid post boA boC hmem _ _
    cases hmem
  | case3 f o hp hl rest idx now dummy h0 =>
    intro _ p L pre mid post boA boC _ _ hC
    rw [matchLoop_qty0 _ _ _ _ _ _ _ h0] at hC
    obtain ⟨t, ht, _⟩ := hC
    cases ht
  | case4 f o hp hl rest idx now dummy h0 h1 =>
    intro _ p L pre mid post boA boC _ _ hC
    rw [matchLoop_stop _ _ _ _ _ _ h0 h1] at hC
    obtain ⟨t, ht, _⟩ := hC
    cases ht
  | case5 f o hp hl rest idx now dummy h0 h1 h2 =>
    intro _ p L pre mid post boA boC _ _ hC
    rw [matchLoop_frontNone _ _ _ _ _ h0 h1 h2] at hC
    obtain ⟨t, ht, _⟩ := hC
    cases ht
  | case6 f o hp hl rest idx now dummy h0 h1 maker h2 h3 ih =>
    intro hnodup p L pre mid post boA boC hmem horders hC
    have hmk : maker ∈ hl.orders := by
      rw [front_some_orders h2]
      exact List.mem_cons_self _ _
    have hmap : (hl.orders.map (fun bo => bo.order.id)).Nodup := by
      have h' := hnodup
      rw [restingIds_cons] at h'
      exact (List.nodup_append.mp h').1
    have hidpop := restingIds_pop h2 hp rest
    have hnodup' : (restingIds (if hl.pop_front.isEmpty then rest
        else (hp, hl.pop_front) :: rest)).Nodup := by
      have h' := hnodup
      rw [hidpop] at h'
      exact (List.nodup_cons.mp h').2
    have hmknotin : maker.order.id ∉ restingIds
        (if hl.pop_front.isEmpty then rest
         else (hp, hl.pop_front) :: rest) := by
      have h' := hnodup
      rw [hidpop] at h'
      exact (List.nodup_cons.mp h').1
    have hstep : (matchLoop (f + 1) o ((hp, hl) :: rest) idx now []).2.2.2 =
        (⟨o.id, maker.order.id, hp, min o.qty maker.remaining_qty, now⟩ :
          TradeEvent) ::
        (matchLoop f { o with qty := o.qty - min o.qty maker.remaining_qty }
          (if hl.pop_front.isEmpty then rest
           else (hp, hl.pop_front) :: rest)
          (idxErase idx maker.order.id) now []).2.2.2 := by
      rw [matchLoop_popStep _ _ _ _ _ h0 h1 h2 h3, matchLoop_acc _ _ _ _ _ []]
      simp
    rcases List.mem_cons.mp hmem with heq | hmemrest
    · -- the decomposed level is the head level being consumed
      rw [Prod.mk.injEq] at heq
      obtain ⟨hpeq, hLeq⟩ := heq
      rw [hLeq] at horders
      rcases pre with _ | ⟨x, pre'⟩
      · -- `boA` is the front: this very trade fills it completely
        have hAC : boA.order.id ≠ boC.order.id := nodup_queue_ne hmap horders
        simp only [List.nil_append] at horders
        have hfront := front_some_orders h2
        rw [horders] at hfront
        have hmA : maker = boA := (List.cons.injEq _ _ _ _ |>.mp
          hfront.symm).1
        have hfill : min o.qty maker.remaining_qty = maker.remaining_qty := by
          have := Nat.min_le_right o.qty maker.remaining_qty
          omega
        refine ⟨[⟨o.id, maker.order.id, hp,
          min o.qty maker.remaining_qty, now⟩],
          (matchLoop f { o with qty := o.qty - min o.qty maker.remaining_qty }
            (if hl.pop_front.isEmpty then rest
             else (hp, hl.pop_front) :: rest)
            (idxErase idx maker.order.id) now []).2.2.2, ?_, ?_, ?_, ?_⟩
        · rw [hstep]
          rfl
        · rw [sumQtyOf_single_eq (by rw [hmA])]
          rw [hfill, hmA]
        · intro t ht
          rcases List.mem_cons.mp ht with rfl | hf
          · simpa [hmA] using hAC
          · cases hf
        · intro t ht heq2
          rcases matchLoop_makers _ _ _ _ _ _ t ht with hf | hin
          · cases hf
          · rw [heq2, ← hmA] at hin
            exact hmknotin hin
      · -- an earlier slot `x` is in front of `boA`: peel one trade and recurse
        simp only [List.cons_append] at horders
        have hfront := front_some_orders h2
        rw [horders] at hfront
        have hmx : maker = x := (List.cons.injEq _ _ _ _ |>.mp hfront.symm).1
        have hpop : hl.pop_front.orders =
            pre' ++ boA :: (mid ++ boC :: post) :=
          (List.cons.injEq _ _ _ _ |>.mp hfront.symm).2
        have hxAC := nodup_queue_head_ne hmap horders
        have hpopne : hl.pop_front.isEmpty = false := by
          simp [BookLevel.isEmpty, List.isEmpty_iff, hpop]
        have hb'eq : (if hl.pop_front.isEmpty then rest
            else (hp, hl.pop_front) :: rest) = (hp, hl.pop_front) :: rest := by
          rw [hpopne]
          simp
        have hCnew : ∃ t ∈ (matchLoop f
            { o with qty := o.qty - min o.qty maker.remaining_qty }
            (if hl.pop_front.isEmpty then rest
             else (hp, hl.pop_front) :: rest)
            (idxErase idx maker.order.id) now []).2.2.2,
            t.maker_id = boC.order.id := by
          obtain ⟨t, ht, hmkr⟩ := hC
          rw [hstep] at ht
          rcases List.mem_cons.mp ht with rfl | hin
          · exfalso
            rw [hmx] at hmkr
            exact hxAC.2 hmkr
          · exact ⟨t, hin, hmkr⟩
        obtain ⟨tr1, tr2, hsplit, hsum, hno1, hno2⟩ :=
          ih hnodup' hp hl.pop_front pre' mid post boA boC
            (by rw [hb'eq]; exact List.mem_cons_self _ _) hpop hCnew
        refine ⟨(⟨o.id, maker.order.id, hp,
          min o.qty maker.remaining_qty, now⟩ : TradeEvent) :: tr1, tr2,
          ?_, ?_, ?_, hno2⟩
        · rw [hstep, hsplit]
          rfl
        · rw [sumQtyOf_cons_ne (by rw [hmx]; exact hxAC.1)]
          exact hsum
        · intro t ht
          rcases List.mem_cons.mp ht with rfl | hin
          · simpa [hmx] using hxAC.2
          · exact hno1 t hin
    · -- the decomposed level is deeper in the book: peel and recurse
      have hA : boA ∈ L.orders := by rw [horders]; simp
      have hCmem : boC ∈ L.orders := by rw [horders]; simp
      have hmkA : maker.order.id ≠ boA.order.id :=
        nodup_cross_ne hnodup hmk hmemrest hA
      have hmkC : maker.order.id ≠ boC.order.id :=
        nodup_cross_ne hnodup hmk hmemrest hCmem
      have hmem' : (p, L) ∈ (if hl.pop_front.isEmpty then rest
          else (hp, hl.pop_front) :: rest) := by
        by_cases hemp : hl.pop_front.isEmpty
        · rw [if_pos hemp]
          exact hmemrest
        · rw [if_neg hemp]
          exact List.mem_cons_of_mem _ hmemrest
      have hCnew : ∃ t ∈ (matchLoop f
          { o with qty := o.qty - min o.qty maker.remaining_qty }
          (if hl.pop_front.isEmpty then rest
           else (hp, hl.pop_front) :: rest)
          (idxErase idx maker.order.id) now []).2.2.2,
          t.maker_id = boC.order.id := by
        obtain ⟨t, ht, hmkr⟩ := hC
        rw [hstep] at ht
        rcases List.mem_cons.mp ht with rfl | hin
        · exact absurd hmkr hmkC
        · exact ⟨t, hin, hmkr⟩
      obtain ⟨tr1, tr2, hsplit, hsum, hno1, hno2⟩ :=
        ih hnodup' p L pre mid post boA boC hmem' horders hCnew
      refine ⟨(⟨o.id, maker.order.id, hp,
        min o.qty maker.remaining_qty, now⟩ : TradeEvent) :: tr1, tr2,
        ?_, ?_, ?_, hno2⟩
      · rw [hstep, hsplit]
        rfl
      · rw [sumQtyOf_cons_ne hmkA]
        exact hsum
      · intro t ht
        rcases List.mem_cons.mp ht with rfl | hin
        · exact hmkC
        · exact hno1 t hin
  | case7 f o hp hl rest idx now dummy h0 h1 maker h2 h3 ih =>
    intro hnodup p L pre mid post boA boC hmem horders hC
    have hmk : maker ∈ hl.orders := by
      rw [front_some_orders h2]
      exact List.mem_cons_self _ _
    have hmap : (hl.orders.map (fun bo => bo.order.id)).Nodup := by
      have h' := hnodup
      rw [restingIds_cons] at h'
      exact (List.nodup_append.mp h').1
    -- the maker absorbed the whole aggressor: only one trade is emitted,
    -- and its maker cannot be the later slot `boC`
    exfalso
    have hstep : (matchLoop (f + 1) o ((hp, hl) :: rest) idx now []).2.2.2 =
        [(⟨o.id, maker.order.id, hp,
          min o.qty maker.remaining_qty, now⟩ : TradeEvent)] := by
      rw [matchLoop_updateStep _ _ _ _ _ h0 h1 h2 h3]
      rw [matchLoop_spent _ _ _ _ _ (update_branch_fill h3)]
      simp
    obtain ⟨t, ht, hmkr⟩ := hC
    rw [hstep] at ht
    rcases List.mem_cons.mp ht with rfl | hf
    · -- the single trade's maker is the front, never a later queue member
      rcases List.mem_cons.mp hmem with heq | hmemrest
      · rw [Prod.mk.injEq] at heq
        obtain ⟨hpeq, hLeq⟩ := heq
        rw [hLeq] at horders
        rcases pre with _ | ⟨x, pre'⟩
        · have hAC : boA.order.id ≠ boC.order.id := nodup_queue_ne hmap horders
          simp only [List.nil_append] at horders
          have hfront := front_some_orders h2
          rw [horders] at hfront
          have hmA : maker = boA :=
            (List.cons.injEq _ _ _ _ |>.mp hfront.symm).1
          rw [hmA] at hmkr
          exact hAC hmkr
        · simp only [List.cons_append] at horders
          have hfront := front_some_orders h2
          rw [horders] at hfront
          have hmx : maker = x :=
            (List.cons.injEq _ _ _ _ |>.mp hfront.symm).1
          have hxAC := nodup_queue_head_ne hmap horders
          rw [hmx] at hmkr
          exact hxAC.2 hmkr
      · have hCmem : boC ∈ L.orders := by rw [horders]; simp
        exact nodup_cross_ne hnodup hmk hmemrest hCmem hmkr
    · cases hf

/-! ## C2: the book is never crossed (amended: sentinel-free prices) -/

theorem hbKeys_head (hb : HalfBook) :
    (hbKeys hb).head? = hb.head?.map Prod.fst := by
  cases hb <;> rfl

theorem sortedHalf_keys {before : Int → Int → Bool} {hb : HalfBook} :
    SortedHalf before hb ↔
      (hbKeys hb).Pairwise (fun a b => before a b = true) := by
  rw [SortedHalf, hbKeys, List.pairwise_map]

theorem noInvalidHalf_keys {hb : HalfBook} :
    NoInvalidHalf hb ↔ ∀ q ∈ hbKeys hb, q ≠ INVALID_PRICE := by
  constructor
  · intro h q hq
    obtain ⟨pl, hpl, heq⟩ := List.mem_map.mp hq
    rw [← heq]
    exact h pl hpl
  · intro h pl hpl
    exact h pl.1 (List.mem_map.mpr ⟨pl, hpl, rfl⟩)

/-- The loop only consumes the opposite side from the front: the surviving
price keys are a suffix of the original ones (the head level may have been
partially consumed, but its key is unchanged). -/
theorem matchLoop_keys_suffix :
    ∀ (fuel : Nat) (o : Order) (hb : HalfBook) (idx : OrderIndex)
      (now : Nat) (acc : List TradeEvent),
      hbKeys (matchLoop fuel o hb idx now acc).2.1 <:+ hbKeys hb := by
  intro fuel o hb idx now acc
  induction fuel, o, hb, idx, now, acc using matchLoop.induct with
  | case1 o hb idx now acc =>
    rw [matchLoop_zero]
  | case2 f o idx now acc =>
    rw [matchLoop_nil]
  | case3 f o p l rest idx now acc h0 =>
    rw [matchLoop_qty0 _ _ _ _ _ _ _ h0]
  | case4 f o p l rest idx now acc h0 h1 =>
    rw [matchLoop_stop _ _ _ _ _ _ h0 h1]
  | case5 f o p l rest idx now acc h0 h1 h2 =>
    rw [matchLoop_frontNone _ _ _ _ _ h0 h1 h2]
  | case6 f o p l rest idx now acc h0 h1 maker h2 h3 ih =>
    rw [matchLoop_popStep _ _ _ _ _ h0 h1 h2 h3]
    by_cases hemp : l.pop_front.isEmpty
    · rw [if_pos hemp] at ih ⊢
      exact ih.trans (List.suffix_cons p (hbKeys rest))
    · rw [if_neg hemp] at ih ⊢
      exact ih
  | case7 f o p l rest idx now acc h0 h1 maker h2 h3 ih =>
    rw [matchLoop_updateStep _ _ _ _ _ h0 h1 h2 h3]
    exact ih

/-- Popping the front slot keeps the no-empty-level invariant: an emptied
level is erased. -/
theorem noEmpty_pop (l : BookLevel) (p : Int) (rest : HalfBook)
    (hne : NoEmptyHalf ((p, l) :: rest)) :
    NoEmptyHalf (if l.pop_front.isEmpty then rest
      else (p, l.pop_front) :: rest) := by
  by_cases hemp : l.pop_front.isEmpty
  · rw [if_pos hemp]
    intro pl hpl
    exact hne pl (List.mem_cons_of_mem _ hpl)
  · rw [if_neg hemp]
    intro pl hpl
    rcases List.mem_cons.mp hpl with rfl | hin
    · simpa [BookLevel.isEmpty, List.isEmpty_iff] using hemp
    · exact hne pl (List.mem_cons_of_mem _ hin)

/-- Updating the front slot keeps the no-empty-level invariant. -/
theorem noEmpty_update {l : BookLevel} {maker : BookOrder}
    (h2 : l.front = some maker) (n : Nat) (p : Int) (rest : HalfBook)
    (hne : NoEmptyHalf ((p, l) :: rest)) :
    NoEmptyHalf ((p, l.update_front_qty n) :: rest) := by
  intro pl hpl
  rcases List.mem_cons.mp hpl with rfl | hin
  · show (l.update_front_qty n).orders ≠ []
    rw [update_front_orders h2]
    simp
  · exact hne pl (List.mem_cons_of_mem _ hin)

/-- The matching loop preserves the no-empty-level invariant. -/
theorem matchLoop_noEmpty :
    ∀ (fuel : Nat) (o : Order) (hb : HalfBook) (idx : OrderIndex)
      (now : Nat) (acc : List TradeEvent),
      NoEmptyHalf hb → NoEmptyHalf (matchLoop fuel o hb idx now acc).2.1 := by
  intro fuel o hb idx now acc
  induction fuel, o, hb, idx, now, acc using matchLoop.induct with
  | case1 o hb idx now acc =>
    intro h
    rw [matchLoop_zero]
    exact h
  | case2 f o idx now acc =>
    intro h
    rw [matchLoop_nil]
    exact h
  | case3 f o p l rest idx now acc h0 =>
    intro h
    rw [matchLoop_qty0 _ _ _ _ _ _ _ h0]
    exact h
  | case4 f o p l rest idx now acc h0 h1 =>
    intro h
    rw [matchLoop_stop _ _ _ _ _ _ h0 h1]
    exact h
  | case5 f o p l rest idx now acc h0 h1 h2 =>
    intro h
    rw [matchLoop_frontNone _ _ _ _ _ h0 h1 h2]
    exact h
  | case6 f o p l rest idx now acc h0 h1 maker h2 h3 ih =>
    intro h
    rw [matchLoop_popStep _ _ _ _ _ h0 h1 h2 h3]
    exact ih (noEmpty_pop l p rest h)
  | case7 f o p l rest idx now acc h0 h1 maker h2 h3 ih =>
    intro h
    rw [matchLoop_updateStep _ _ _ _ _ h0 h1 h2 h3]
    exact ih (noEmpty_update h2 _ p rest h)

/-- A spent aggressor passes through the loop unchanged. -/
theorem matchLoop_of_qty0 {o : Order} (fuel : Nat) (hb : HalfBook)
    (idx : OrderIndex) (now : Nat) (acc : List TradeEvent)
    (h : o.qty = 0) : (matchLoop fuel o hb idx now acc).1 = o := by
  cases fuel with
  | zero => rw [matchLoop_zero]
  | succ f =>
    cases hb with
    | nil => rw [matchLoop_nil]
    | cons head rest =>
      obtain ⟨p, l⟩ := head
      rw [matchLoop_qty0 _ _ _ _ _ _ _ h]

theorem is_market_set_qty (o : Order) (x : Nat) :
    Order.is_market { o with qty := x } = o.is_market := rfl

theorem priceBreaks_set_qty (o : Order) (x : Nat) (p : Int) :
    priceBreaks { o with qty := x } p = priceBreaks o p := rfl

/-- Break analysis: with enough fuel (the callers always pass more than the
termination measure) and no empty levels, the loop stops only because the
aggressor is spent, the opposite side is exhausted, or the head price fails
the cross test for a non-market aggressor. -/
theorem matchLoop_end :
    ∀ (fuel : Nat) (o : Order) (hb : HalfBook) (idx : OrderIndex)
      (now : Nat) (acc : List TradeEvent),
      NoEmptyHalf hb → o.qty + countOrders hb < fuel →
      (matchLoop fuel o hb idx now acc).1.qty = 0 ∨
      (matchLoop fuel o hb idx now acc).2.1 = [] ∨
      ∃ p l rest, (matchLoop fuel o hb idx now acc).2.1 = (p, l) :: rest ∧
        (!o.is_market && priceBreaks o p) = true := by
  intro fuel o hb idx now acc
  induction fuel, o, hb, idx, now, acc using matchLoop.induct with
  | case1 o hb idx now acc =>
    intro _ hlt
    omega
  | case2 f o idx now acc =>
    intro _ _
    rw [matchLoop_nil]
    exact Or.inr (Or.inl rfl)
  | case3 f o p l rest idx now acc h0 =>
    intro _ _
    rw [matchLoop_qty0 _ _ _ _ _ _ _ h0]
    exact Or.inl h0
  | case4 f o p l rest idx now acc h0 h1 =>
    intro _ _
    rw [matchLoop_stop _ _ _ _ _ _ h0 h1]
    exact Or.inr (Or.inr ⟨p, l, rest, rfl, h1⟩)
  | case5 f o p l rest idx now acc h0 h1 h2 =>
    intro hne _
    exfalso
    have hmem := hne (p, l) (List.mem_cons_self _ _)
    rw [BookLevel.front] at h2
    exact hmem (List.head?_eq_none_iff.mp h2)
  | case6 f o p l rest idx now acc h0 h1 maker h2 h3 ih =>
    intro hne hlt
    rw [matchLoop_popStep _ _ _ _ _ h0 h1 h2 h3]
    have hcnt := countOrders_pop h2 p rest
    have hlt' : o.qty - min o.qty maker.remaining_qty +
        countOrders (if l.pop_front.isEmpty then rest
          else (p, l.pop_front) :: rest) < f := by
      omega
    rcases ih (noEmpty_pop l p rest hne) hlt' with h | h |
      ⟨p', l', rest', heq, hbrk⟩
    · exact Or.inl h
    · exact Or.inr (Or.inl h)
    · refine Or.inr (Or.inr ⟨p', l', rest', heq, ?_⟩)
      rw [is_market_set_qty, priceBreaks_set_qty] at hbrk
      exact hbrk
  | case7 f o p l rest idx now acc h0 h1 maker h2 h3 ih =>
    intro hne hlt
    rw [matchLoop_updateStep _ _ _ _ _ h0 h1 h2 h3]
    left
    have hq0 : ({ o with qty := o.qty - min o.qty maker.remaining_qty } :
        Order).qty = 0 := update_branch_fill h3
    rw [matchLoop_of_qty0 _ _ _ _ _ hq0]
    exact hq0

/-- The matching loop preserves the side's sorted order. -/
theorem matchLoop_sorted {before : Int → Int → Bool} (fuel : Nat)
    (o : Order) (hb : HalfBook) (idx : OrderIndex) (now : Nat)
    (acc : List TradeEvent) (hs : SortedHalf before hb) :
    SortedHalf before (matchLoop fuel o hb idx now acc).2.1 := by
  rw [sortedHalf_keys] at hs ⊢
  exact List.Pairwise.sublist
    (matchLoop_keys_suffix fuel o hb idx now acc).sublist hs

/-- The matching loop never creates a level at the sentinel price. -/
theorem matchLoop_noInvalid (fuel : Nat) (o : Order) (hb : HalfBook)
    (idx : OrderIndex) (now : Nat) (acc : List TradeEvent)
    (h : NoInvalidHalf hb) :
    NoInvalidHalf (matchLoop fuel o hb idx now acc).2.1 := by
  rw [noInvalidHalf_keys] at h ⊢
  intro q hq
  exact h q ((matchLoop_keys_suffix fuel o hb idx now acc).subset hq)

/-- In a sorted side every key is the head key or comes after it in the
comparator's order. -/
theorem sorted_head_bound {before : Int → Int → Bool} {hb : HalfBook}
    {q0 q : Int} (hs : SortedHalf before hb)
    (hh : (hbKeys hb).head? = some q0) (hq : q ∈ hbKeys hb) :
    q = q0 ∨ before q0 q = true := by
  rw [sortedHalf_keys] at hs
  cases hk : hbKeys hb with
  | nil =>
    rw [hk] at hq
    cases hq
  | cons a tl =>
    rw [hk] at hh hq hs
    simp only [List.head?_cons, Option.some.injEq] at hh
    subst hh
    rcases List.mem_cons.mp hq with rfl | hin
    · exact Or.inl rfl
    · exact Or.inr ((List.pairwise_cons.mp hs).1 q hin)

/-- Every key after an insertion is the inserted key or an original key. -/
theorem hbAddOrder_keys_mem (before : Int → Int → Bool) (hb : HalfBook)
    (p : Int) (bo : BookOrder) :
    ∀ q ∈ hbKeys (hbAddOrder before hb p bo), q = p ∨ q ∈ hbKeys hb := by
  induction hb with
  | nil =>
    intro q hq
    rcases List.mem_cons.mp hq with rfl | h
    · exact Or.inl rfl
    · cases h
  | cons head rest ih =>
    obtain ⟨pk, l⟩ := head
    intro q hq
    simp only [hbAddOrder] at hq
    by_cases hpq : p = pk
    · rw [if_pos hpq] at hq
      exact Or.inr hq
    · rw [if_neg hpq] at hq
      by_cases hbp : before p pk
      · rw [if_pos hbp] at hq
        rcases List.mem_cons.mp hq with rfl | h
        · exact Or.inl rfl
        · exact Or.inr h
      · rw [if_neg hbp] at hq
        rcases List.mem_cons.mp hq with rfl | h
        · exact Or.inr (List.mem_cons_self _ _)
        · rcases ih q h with h' | h'
          · exact Or.inl h'
          · exact Or.inr (List.mem_cons_of_mem _ h')

/-- The head key after an insertion is the inserted key or the old head
key. -/
theorem hbAddOrder_head (before : Int → Int → Bool) (hb : HalfBook)
    (p : Int) (bo : BookOrder) :
    (hbKeys (hbAddOrder before hb p bo)).head? = some p ∨
    (hbKeys (hbAddOrder before hb p bo)).head? = (hbKeys hb).head? := by
  cases hb with
  | nil => exact Or.inl rfl
  | cons head rest =>
    obtain ⟨pk, l⟩ := head
    simp only [hbAddOrder]
    by_cases hpq : p = pk
    · rw [if_pos hpq, hpq]
      exact Or.inr rfl
    · rw [if_neg hpq]
      by_cases hbp : before p pk
      · rw [if_pos hbp]
        exact Or.inl rfl
      · rw [if_neg hbp]
        exact Or.inr rfl

/-- Sorted insertion: `operator[]` keeps the map sorted by its
comparator (stated for any transitive, total strict comparator). -/
theorem hbAddOrder_sorted {before : Int → Int → Bool}
    (htrans : ∀ a b c : Int,
      before a b = true → before b c = true → before a c = true)
    (htot : ∀ a b : Int, a ≠ b → before a b = true ∨ before b a = true)
    (hb : HalfBook) (p : Int) (bo : BookOrder)
    (hs : SortedHalf before hb) :
    SortedHalf before (hbAddOrder before hb p bo) := by
  induction hb with
  | nil =>
    rw [SortedHalf]
    exact List.pairwise_singleton _ _
  | cons head rest ih =>
    obtain ⟨pk, l⟩ := head
    rw [SortedHalf, List.pairwise_cons] at hs
    simp only [hbAddOrder]
    by_cases hpq : p = pk
    · rw [if_pos hpq, SortedHalf, List.pairwise_cons]
      exact hs
    · rw [if_neg hpq]
      by_cases hbp : before p pk
      · rw [if_pos hbp, SortedHalf, List.pairwise_cons]
        constructor
        · intro y hy
          rcases List.mem_cons.mp hy with rfl | hin
          · exact hbp
          · exact htrans p pk y.1 hbp (hs.1 y hin)
        · rw [List.pairwise_cons]
          exact hs
      · rw [if_neg hbp, SortedHalf, List.pairwise_cons]
        constructor
        · intro y hy
          have hkey := hbAddOrder_keys_mem before rest p bo y.1
            (List.mem_map.mpr ⟨y, hy, rfl⟩)
          rcases hkey with hyp | hin
          · rw [hyp]
            rcases htot p pk hpq with h | h
            · exact absurd h hbp
            · exact h
          · obtain ⟨z, hz, hzeq⟩ := List.mem_map.mp hin
            rw [← hzeq]
            exact hs.1 z hz
        · exact ih hs.2

/-- Insertion never creates an empty level. -/
theorem hbAddOrder_noEmpty (before : Int → Int → Bool) (hb : HalfBook)
    (p : Int) (bo : BookOrder) (hne : NoEmptyHalf hb) :
    NoEmptyHalf (hbAddOrder before hb p bo) := by
  induction hb with
  | nil =>
    intro pl hpl
    rcases List.mem_cons.mp hpl with rfl | h
    · simp [BookLevel.emptyLevel, BookLevel.add_order]
    · cases h
  | cons head rest ih =>
    obtain ⟨pk, l⟩ := head
    intro pl hpl
    simp only [hbAddOrder] at hpl
    by_cases hpq : p = pk
    · rw [if_pos hpq] at hpl
      rcases List.mem_cons.mp hpl with rfl | h
      · show (l.add_order bo).orders ≠ []
        simp [BookLevel.add_order]
      · exact hne pl (List.mem_cons_of_mem _ h)
    · rw [if_neg hpq] at hpl
      by_cases hbp : before p pk
      · rw [if_pos hbp] at hpl
        rcases List.mem_cons.mp hpl with rfl | h
        · simp [BookLevel.emptyLevel, BookLevel.add_order]
        · exact hne pl h
      · rw [if_neg hbp] at hpl
        rcases List.mem_cons.mp hpl with rfl | h
        · exact hne (pk, l) (List.mem_cons_self _ _)
        · exact ih (fun x hx => hne x (List.mem_cons_of_mem _ hx)) pl h

/-- Inserting at a non-sentinel price keeps the sentinel out of the keys. -/
theorem hbAddOrder_noInvalid (before : Int → Int → Bool) (hb : HalfBook)
    (p : Int) (bo : BookOrder) (hp : p ≠ INVALID_PRICE)
    (hni : NoInvalidHalf hb) :
    NoInvalidHalf (hbAddOrder before hb p bo) := by
  rw [noInvalidHalf_keys] at hni ⊢
  intro q hq
  rcases hbAddOrder_keys_mem before hb p bo q hq with rfl | hin
  · exact hp
  · exact hni q hin

theorem hbErase_mem (hb : HalfBook) (p : Int) :
    ∀ pl ∈ hbErase hb p, pl ∈ hb := by
  induction hb with
  | nil =>
    intro pl hpl
    cases hpl
  | cons head rest ih =>
    intro pl hpl
    rw [hbErase] at hpl
    by_cases hpq : p = head.1
    · rw [if_pos hpq] at hpl
      exact List.mem_cons_of_mem _ hpl
    · rw [if_neg hpq] at hpl
      rcases List.mem_cons.mp hpl with rfl | h
      · exact List.mem_cons_self _ _
      · exact List.mem_cons_of_mem _ (ih pl h)

theorem hbErase_keys_sublist (hb : HalfBook) (p : Int) :
    (hbKeys (hbErase hb p)).Sublist (hbKeys hb) := by
  induction hb with
  | nil => exact List.Sublist.refl _
  | cons head rest ih =>
    rw [hbErase]
    by_cases hpq : p = head.1
    · rw [if_pos hpq]
      exact (List.Sublist.refl _).cons _
    · rw [if_neg hpq]
      exact ih.cons₂ _

theorem hbUpdate_keys (hb : HalfBook) (p : Int) (l : BookLevel) :
    hbKeys (hbUpdate hb p l) = hbKeys hb := by
  induction hb with
  | nil => rfl
  | cons head rest ih =>
    rw [hbUpdate]
    by_cases hpq : p = head.1
    · rw [if_pos hpq]
      rfl
    · rw [if_neg hpq]
      show head.1 :: hbKeys (hbUpdate rest p l) = head.1 :: hbKeys rest
      rw [ih]

theorem hbUpdate_noEmpty (hb : HalfBook) (p : Int) (l : BookLevel)
    (hl : l.orders ≠ []) (hne : NoEmptyHalf hb) :
    NoEmptyHalf (hbUpdate hb p l) := by
  induction hb with
  | nil =>
    intro pl hpl
    cases hpl
  | cons head rest ih =>
    intro pl hpl
    rw [hbUpdate] at hpl
    by_cases hpq : p = head.1
    · rw [if_pos hpq] at hpl
      rcases List.mem_cons.mp hpl with rfl | h
      · exact hl
      · exact hne pl (List.mem_cons_of_mem _ h)
    · rw [if_neg hpq] at hpl
      rcases List.mem_cons.mp hpl with rfl | h
      · exact hne head (List.mem_cons_self _ _)
      · exact ih (fun x hx => hne x (List.mem_cons_of_mem _ hx)) pl h

theorem hbErase_noEmpty (hb : HalfBook) (p : Int)
    (hne : NoEmptyHalf hb) : NoEmptyHalf (hbErase hb p) := by
  intro pl hpl
  exact hne pl (hbErase_mem hb p pl hpl)

/-- Removing a slot from a side keeps the key list a sublist of the
original. -/
theorem removeSlot_keys_sublist (hb : HalfBook) (p : Int) (id : Nat) :
    (hbKeys (Book.removeSlotFromHalf hb p id).1).Sublist (hbKeys hb) := by
  cases hf : hbFind hb p with
  | none =>
    simp only [Book.removeSlotFromHalf, hf]
    exact List.Sublist.refl _
  | some level =>
    cases hro : level.remove_order id with
    | none =>
      simp only [Book.removeSlotFromHalf, hf, hro]
      by_cases hemp : level.isEmpty
      · rw [if_pos hemp]
        exact hbErase_keys_sublist hb p
      · rw [if_neg hemp]
    | some pr =>
      obtain ⟨level2, q⟩ := pr
      simp only [Book.removeSlotFromHalf, hf, hro]
      by_cases hemp : level2.isEmpty
      · rw [if_pos hemp]
        exact hbErase_keys_sublist hb p
      · rw [if_neg hemp]
        rw [hbUpdate_keys]

/-- Removing a slot preserves the no-empty-level invariant. -/
theorem removeSlot_noEmpty (hb : HalfBook) (p : Int) (id : Nat)
    (hne : NoEmptyHalf hb) :
    NoEmptyHalf (Book.removeSlotFromHalf hb p id).1 := by
  cases hf : hbFind hb p with
  | none =>
    simp only [Book.removeSlotFromHalf, hf]
    exact hne
  | some level =>
    cases hro : level.remove_order id with
    | none =>
      simp only [Book.removeSlotFromHalf, hf, hro]
      by_cases hemp : level.isEmpty
      · rw [if_pos hemp]
        exact hbErase_noEmpty hb p hne
      · rw [if_neg hemp]
        exact hne
    | some pr =>
      obtain ⟨level2, q⟩ := pr
      simp only [Book.removeSlotFromHalf, hf, hro]
      by_cases hemp : level2.isEmpty
      · rw [if_pos hemp]
        exact hbErase_noEmpty hb p hne
      · rw [if_neg hemp]
        refine hbUpdate_noEmpty hb p level2 ?_ hne
        simpa [BookLevel.isEmpty, List.isEmpty_iff] using hemp

/-- Removing a slot preserves the side's sorted order. -/
theorem removeSlot_sorted {before : Int → Int → Bool} (hb : HalfBook)
    (p : Int) (id : Nat) (hs : SortedHalf before hb) :
    SortedHalf before (Book.removeSlotFromHalf hb p id).1 := by
  rw [sortedHalf_keys] at hs ⊢
  exact List.Pairwise.sublist (removeSlot_keys_sublist hb p id) hs

/-- Removing a slot keeps the sentinel out of the keys. -/
theorem removeSlot_noInvalid (hb : HalfBook) (p : Int) (id : Nat)
    (hni : NoInvalidHalf hb) :
    NoInvalidHalf (Book.removeSlotFromHalf hb p id).1 := by
  rw [noInvalidHalf_keys] at hni ⊢
  intro q hq
  exact hni q ((removeSlot_keys_sublist hb p id).subset hq)

theorem mem_of_head? {α : Type} {l : List α} {a : α}
    (h : l.head? = some a) : a ∈ l := by
  cases l with
  | nil => cases h
  | cons x xs =>
    simp only [List.head?_cons, Option.some.injEq] at h
    rw [← h]
    exact List.mem_cons_self _ _

theorem side_set_qty (o : Order) (x : Nat) :
    ({ o with qty := x } : Order).side = o.side := rfl

theorem price_set_qty (o : Order) (x : Nat) :
    ({ o with qty := x } : Order).price = o.price := rfl

theorem is_limit_set_qty (o : Order) (x : Nat) :
    Order.is_limit { o with qty := x } = o.is_limit := rfl

theorem bidBefore_trans : ∀ a b c : Int,
    bidBefore a b = true → bidBefore b c = true → bidBefore a c = true := by
  intro a b c h1 h2
  simp only [bidBefore, decide_eq_true_eq] at h1 h2 ⊢
  omega

theorem bidBefore_total : ∀ a b : Int, a ≠ b →
    bidBefore a b = true ∨ bidBefore b a = true := by
  intro a b h
  simp only [bidBefore, decide_eq_true_eq]
  omega

theorem askBefore_trans : ∀ a b c : Int,
    askBefore a b = true → askBefore b c = true → askBefore a c = true := by
  intro a b c h1 h2
  simp only [askBefore, decide_eq_true_eq] at h1 h2 ⊢
  omega

theorem askBefore_total : ∀ a b : Int, a ≠ b →
    askBefore a b = true ∨ askBefore b a = true := by
  intro a b h
  simp only [askBefore, decide_eq_true_eq]
  omega

/-- Matching preserves the invariant bundle: the touched side only loses
slots and levels from its front. -/
theorem match_order_BookInv (b : Book) (o : Order) (now : Nat)
    (acc : List TradeEvent) (hinv : BookInv b) :
    BookInv (b.match_order o now acc).2.1 := by
  obtain ⟨hsb, hsa, ⟨hneb, hnea⟩, hib, hia, hnc⟩ := hinv
  cases hs : o.side
  · -- buy aggressor: asks shrink from the front
    simp only [Book.match_order, hs]
    refine ⟨hsb, matchLoop_sorted _ _ _ _ _ _ hsa,
      ⟨hneb, matchLoop_noEmpty _ _ _ _ _ _ hnea⟩,
      hib, matchLoop_noInvalid _ _ _ _ _ _ hia, ?_⟩
    intro pb pa hpb hpa
    have hpa2 : (hbKeys (matchLoop (o.qty + countOrders b.asks + 1) o b.asks
        b.order_index now acc).2.1).head? = some pa := by
      rw [hbKeys_head]
      exact hpa
    have hmem : pa ∈ hbKeys b.asks :=
      (matchLoop_keys_suffix _ _ _ _ _ _).subset (mem_of_head? hpa2)
    cases hasks : b.asks with
    | nil =>
      rw [hasks] at hmem
      cases hmem
    | cons hd tl =>
      have h1 : pb < hd.1 := hnc pb hd.1 hpb
        (by rw [Book.bestAsk?, hasks]; rfl)
      have hh : (hbKeys b.asks).head? = some hd.1 := by
        rw [hasks]
        rfl
      rcases sorted_head_bound hsa hh hmem with heq | hlt
      · rw [heq]
        exact h1
      · have h2 : hd.1 < pa := by simpa [askBefore] using hlt
        omega
  · -- sell aggressor: bids shrink from the front
    simp only [Book.match_order, hs]
    refine ⟨matchLoop_sorted _ _ _ _ _ _ hsb, hsa,
      ⟨matchLoop_noEmpty _ _ _ _ _ _ hneb, hnea⟩,
      matchLoop_noInvalid _ _ _ _ _ _ hib, hia, ?_⟩
    intro pb pa hpb hpa
    have hpb2 : (hbKeys (matchLoop (o.qty + countOrders b.bids + 1) o b.bids
        b.order_index now acc).2.1).head? = some pb := by
      rw [hbKeys_head]
      exact hpb
    have hmem : pb ∈ hbKeys b.bids :=
      (matchLoop_keys_suffix _ _ _ _ _ _).subset (mem_of_head? hpb2)
    cases hbids : b.bids with
    | nil =>
      rw [hbids] at hmem
      cases hmem
    | cons hd tl =>
      have h1 : hd.1 < pa := hnc hd.1 pa
        (by rw [Book.bestBid?, hbids]; rfl) hpa
      have hh : (hbKeys b.bids).head? = some hd.1 := by
        rw [hbids]
        rfl
      rcases sorted_head_bound hsb hh hmem with heq | hlt
      · rw [heq]
        exact h1
      · have h2 : pb < hd.1 := by simpa [bidBefore] using hlt
        omega

/-- If a non-market buy does not cross, the ask side is empty or its best
price is the sentinel or strictly above the buy limit. -/
theorem would_cross_false_buy {b : Book} {o : Order}
    (hm : o.is_market = false) (hs : o.side = Side.Buy)
    (hw : b.would_cross o = false) :
    b.asks = [] ∨ ∃ pa l rest, b.asks = (pa, l) :: rest ∧
      (pa = INVALID_PRICE ∨ o.price < pa) := by
  cases hasks : b.asks with
  | nil => exact Or.inl rfl
  | cons hd tl =>
    obtain ⟨pa, l⟩ := hd
    refine Or.inr ⟨pa, l, tl, rfl, ?_⟩
    rw [Book.would_cross, hm] at hw
    simp only [Bool.false_eq_true, if_false, hs, opposite,
      Book.best_price, hasks] at hw
    by_cases hpa : pa = INVALID_PRICE
    · exact Or.inl hpa
    · rw [if_neg hpa] at hw
      right
      have h2 : ¬ (o.price ≥ pa) := by simpa using hw
      omega

/-- If a non-market sell does not cross, the bid side is empty or its best
price is the sentinel or strictly below the sell limit. -/
theorem would_cross_false_sell {b : Book} {o : Order}
    (hm : o.is_market = false) (hs : o.side = Side.Sell)
    (hw : b.would_cross o = false) :
    b.bids = [] ∨ ∃ pb l rest, b.bids = (pb, l) :: rest ∧
      (pb = INVALID_PRICE ∨ pb < o.price) := by
  cases hbids : b.bids with
  | nil => exact Or.inl rfl
  | cons hd tl =>
    obtain ⟨pb, l⟩ := hd
    refine Or.inr ⟨pb, l, tl, rfl, ?_⟩
    rw [Book.would_cross, hm] at hw
    simp only [Bool.false_eq_true, if_false, hs, opposite,
      Book.best_price, hbids] at hw
    by_cases hpb : pb = INVALID_PRICE
    · exact Or.inl hpb
    · rw [if_neg hpb] at hw
      right
      have h2 : ¬ (o.price ≤ pb) := by simpa using hw
      omega

/-- Resting a non-crossing limit order at a non-sentinel price preserves
the invariant bundle. -/
theorem add_resting_BookInv (b : Book) (o : Order)
    (hp : o.price ≠ INVALID_PRICE) (hlim : o.is_limit = true)
    (hwc : b.would_cross o = false) (hinv : BookInv b) :
    BookInv (b.add_resting_order o) := by
  obtain ⟨hsb, hsa, ⟨hneb, hnea⟩, hib, hia, hnc⟩ := hinv
  have ht : o.type = OrderType.Limit := by
    simpa [Order.is_limit] using hlim
  have hm : o.is_market = false := by
    simp [Order.is_market, ht]
  cases hsd : o.side
  · -- buy rests on the bid side
    simp only [Book.add_resting_order, hsd]
    refine ⟨hbAddOrder_sorted bidBefore_trans bidBefore_total _ _ _ hsb, hsa,
      ⟨hbAddOrder_noEmpty _ _ _ _ hneb, hnea⟩,
      hbAddOrder_noInvalid _ _ _ _ hp hib, hia, ?_⟩
    intro pb pa hpb hpa
    have hpb2 : (hbKeys (hbAddOrder bidBefore b.bids o.price
        (mkBookOrder o))).head? = some pb := by
      rw [hbKeys_head]
      exact hpb
    rcases would_cross_false_buy hm hsd hwc with hnil | ⟨pa0, l0, tl0, hasks, hcase⟩
    · rw [Book.bestAsk?, hnil] at hpa
      cases hpa
    · have hpa0 : pa = pa0 := by
        rw [Book.bestAsk?, hasks] at hpa
        simpa using hpa.symm
      have hlt : o.price < pa0 := by
        rcases hcase with hbad | h
        · exact absurd hbad
            (hia (pa0, l0) (by rw [hasks]; exact List.mem_cons_self _ _))
        · exact h
      rcases hbAddOrder_head bidBefore b.bids o.price (mkBookOrder o) with
        hh | hh
      · have hpbo : pb = o.price := by
          have := hpb2.symm.trans hh
          simpa using this
        rw [hpa0, hpbo]
        exact hlt
      · have hob : b.bestBid? = some pb := by
          rw [Book.bestBid?, ← hbKeys_head, ← hh]
          exact hpb2
        have h3 := hnc pb pa0 hob (by rw [Book.bestAsk?, hasks]; rfl)
        rw [hpa0]
        exact h3
  · -- sell rests on the ask side
    simp only [Book.add_resting_order, hsd]
    refine ⟨hsb, hbAddOrder_sorted askBefore_trans askBefore_total _ _ _ hsa,
      ⟨hneb, hbAddOrder_noEmpty _ _ _ _ hnea⟩,
      hib, hbAddOrder_noInvalid _ _ _ _ hp hia, ?_⟩
    intro pb pa hpb hpa
    have hpa2 : (hbKeys (hbAddOrder askBefore b.asks o.price
        (mkBookOrder o))).head? = some pa := by
      rw [hbKeys_head]
      exact hpa
    rcases would_cross_false_sell hm hsd hwc with hnil | ⟨pb0, l0, tl0, hbids, hcase⟩
    · rw [Book.bestBid?, hnil] at hpb
      cases hpb
    · have hpb0 : pb = pb0 := by
        rw [Book.bestBid?, hbids] at hpb
        simpa using hpb.symm
      have hlt : pb0 < o.price := by
        rcases hcase with hbad | h
        · exact absurd hbad
            (hib (pb0, l0) (by rw [hbids]; exact List.mem_cons_self _ _))
        · exact h
      rcases hbAddOrder_head askBefore b.asks o.price (mkBookOrder o) with
        hh | hh
      · have hpao : pa = o.price := by
          have := hpa2.symm.trans hh
          simpa using this
        rw [hpb0, hpao]
        exact hlt
      · have hoa : b.bestAsk? = some pa := by
          rw [Book.bestAsk?, ← hbKeys_head, ← hh]
          exact hpa2
        have h3 := hnc pb0 pa (by rw [Book.bestBid?, hbids]; rfl) hoa
        rw [hpb0]
        exact h3

/-- After matching, a non-market aggressor with residual quantity no
longer crosses: the loop stopped on an exhausted side or a price break. -/
theorem match_order_no_cross_after (b : Book) (o : Order) (now : Nat)
    (acc : List TradeEvent) (hinv : BookInv b)
    (hm : o.is_market = false)
    (hq : (b.match_order o now acc).1.qty ≠ 0) :
    (b.match_order o now acc).2.1.would_cross (b.match_order o now acc).1 =
      false := by
  obtain ⟨hsb, hsa, ⟨hneb, hnea⟩, hib, hia, hnc⟩ := hinv
  cases hs : o.side
  · -- buy
    simp only [Book.match_order, hs] at hq ⊢
    have hend := matchLoop_end (o.qty + countOrders b.asks + 1) o b.asks
      b.order_index now acc hnea (by omega)
    rw [Book.would_cross, matchLoop_order_fields, is_market_set_qty, hm]
    simp only [Bool.false_eq_true, if_false, side_set_qty, hs, opposite,
      price_set_qty]
    rcases hend with h | h | ⟨p2, l2, rest2, heqa, hbrk⟩
    · exact absurd h hq
    · simp only [Book.best_price, h, if_true]
    · simp only [Book.best_price, heqa]
      have hne2 : p2 ≠ INVALID_PRICE :=
        noInvalidHalf_keys.mp hia p2
          ((matchLoop_keys_suffix _ _ _ _ _ _).subset (by rw [heqa]; exact List.mem_cons_self _ _))
      rw [if_neg hne2]
      have hgt : o.price < p2 := by
        rw [hm] at hbrk
        simp only [Bool.not_false, Bool.true_and, priceBreaks, hs,
          decide_eq_true_eq] at hbrk
        omega
      exact decide_eq_false (by omega)
  · -- sell
    simp only [Book.match_order, hs] at hq ⊢
    have hend := matchLoop_end (o.qty + countOrders b.bids + 1) o b.bids
      b.order_index now acc hneb (by omega)
    rw [Book.would_cross, matchLoop_order_fields, is_market_set_qty, hm]
    simp only [Bool.false_eq_true, if_false, side_set_qty, hs, opposite,
      price_set_qty]
    rcases hend with h | h | ⟨p2, l2, rest2, heqb, hbrk⟩
    · exact absurd h hq
    · simp only [Book.best_price, h, if_true]
    · simp only [Book.best_price, heqb]
      have hne2 : p2 ≠ INVALID_PRICE :=
        noInvalidHalf_keys.mp hib p2
          ((matchLoop_keys_suffix _ _ _ _ _ _).subset (by rw [heqb]; exact List.mem_cons_self _ _))
      rw [if_neg hne2]
      have hgt : p2 < o.price := by
        rw [hm] at hbrk
        simp only [Bool.not_false, Bool.true_and, priceBreaks, hs,
          decide_eq_true_eq] at hbrk
        omega
      exact decide_eq_false (by omega)

/-- The limit phase preserves the invariant bundle for a non-sentinel
price. -/
theorem rest_phase_BookInv (b : Book) (o : Order) (now : Nat)
    (acc : List TradeEvent) (hp : o.price ≠ INVALID_PRICE)
    (hinv : BookInv b) : BookInv (b.rest_phase o now acc).1 := by
  cases hwc : b.would_cross o with
  | false =>
    simp only [Book.rest_phase, hwc, Bool.false_eq_true, if_false]
    by_cases hrest : (decide (o.qty > 0) && o.is_limit) = true
    · rw [if_pos hrest]
      have hrest2 : 0 < o.qty ∧ o.is_limit = true := by simpa using hrest
      exact add_resting_BookInv b o hp hrest2.2 hwc hinv
    · rw [if_neg hrest]
      exact hinv
  | true =>
    simp only [Book.rest_phase, hwc, if_true]
    have hIr := match_order_BookInv b o now acc hinv
    by_cases hrest : (decide ((b.match_order o now acc).1.qty > 0) &&
        (b.match_order o now acc).1.is_limit) = true
    · rw [if_pos hrest]
      obtain ⟨hqd, hliml⟩ : 0 < (b.match_order o now acc).1.qty ∧
          (b.match_order o now acc).1.is_limit = true := by simpa using hrest
      have hq : (b.match_order o now acc).1.qty ≠ 0 := by
        omega
      have hpr : (b.match_order o now acc).1.price = o.price := by
        rw [match_order_fields]
      have hlim0 : (b.match_order o now acc).1.is_limit = o.is_limit := by
        rw [match_order_fields, is_limit_set_qty]
      have hm : o.is_market = false := by
        have hol : o.is_limit = true := by rw [← hlim0]; exact hliml
        have ht : o.type = OrderType.Limit := by
          simpa [Order.is_limit] using hol
        simp [Order.is_market, ht]
      exact add_resting_BookInv _ _ (by rw [hpr]; exact hp) hliml
        (match_order_no_cross_after b o now acc hinv hm hq) hIr
    · rw [if_neg hrest]
      exact hIr

/-- `LimitBook::add` preserves the invariant bundle for a non-sentinel
price. -/
theorem add_BookInv (b : Book) (o : Order) (now : Nat)
    (hp : o.price ≠ INVALID_PRICE) (hinv : BookInv b) :
    BookInv (b.add o now).2.1 := by
  rw [Book.add]
  by_cases hdup : (idxFind b.order_index o.id).isSome = true
  · rw [if_pos hdup]
    exact hinv
  · rw [if_neg hdup]
    by_cases haggr : (o.is_market || o.is_ioc || o.is_fok) = true
    · rw [if_pos haggr]
      by_cases hfok : (o.is_fok && decide (b.available_qty o < o.qty)) = true
      · rw [if_pos hfok]
        exact hinv
      · rw [if_neg hfok]
        by_cases hdone : ((b.match_order o now []).1.qty = 0 ||
            (b.match_order o now []).1.is_ioc ||
            (b.match_order o now []).1.is_fok) = true
        · rw [if_pos hdone]
          exact match_order_BookInv b o now [] hinv
        · rw [if_neg hdone]
          refine rest_phase_BookInv _ _ now _ ?_ (match_order_BookInv b o now [] hinv)
          have hpr : (b.match_order o now []).1.price = o.price := by
            rw [match_order_fields]
          rw [hpr]
          exact hp
    · rw [if_neg haggr]
      exact rest_phase_BookInv b o now [] hp hinv

/-- `LimitBook::cancel` preserves the invariant bundle. -/
theorem cancel_BookInv (b : Book) (id : Nat) (hinv : BookInv b) :
    BookInv (b.cancel id).2.1 := by
  obtain ⟨hsb, hsa, ⟨hneb, hnea⟩, hib, hia, hnc⟩ := hinv
  rw [Book.cancel]
  cases hloc : idxFind b.order_index id with
  | none => exact ⟨hsb, hsa, ⟨hneb, hnea⟩, hib, hia, hnc⟩
  | some loc =>
    obtain ⟨side, price⟩ := loc
    cases side
    · -- buy slot: the bid side shrinks
      refine ⟨removeSlot_sorted _ _ _ hsb, hsa,
        ⟨removeSlot_noEmpty _ _ _ hneb, hnea⟩,
        removeSlot_noInvalid _ _ _ hib, hia, ?_⟩
      intro pb pa hpb hpa
      have hpb2 : (hbKeys (Book.removeSlotFromHalf b.bids price
          id).1).head? = some pb := by
        rw [hbKeys_head]
        exact hpb
      have hmem : pb ∈ hbKeys b.bids :=
        (removeSlot_keys_sublist _ _ _).subset (mem_of_head? hpb2)
      cases hbids : b.bids with
      | nil =>
        rw [hbids] at hmem
        cases hmem
      | cons hd tl =>
        have h1 : hd.1 < pa := hnc hd.1 pa
          (by rw [Book.bestBid?, hbids]; rfl) hpa
        have hh : (hbKeys b.bids).head? = some hd.1 := by
          rw [hbids]
          rfl
        rcases sorted_head_bound hsb hh hmem with heq | hlt
        · rw [heq]
          exact h1
        · have h2 : pb < hd.1 := by simpa [bidBefore] using hlt
          omega
    · -- sell slot: the ask side shrinks
      refine ⟨hsb, removeSlot_sorted _ _ _ hsa,
        ⟨hneb, removeSlot_noEmpty _ _ _ hnea⟩,
        hib, removeSlot_noInvalid _ _ _ hia, ?_⟩
      intro pb pa hpb hpa
      have hpa2 : (hbKeys (Book.removeSlotFromHalf b.asks price
          id).1).head? = some pa := by
        rw [hbKeys_head]
        exact hpa
      have hmem : pa ∈ hbKeys b.asks :=
        (removeSlot_keys_sublist _ _ _).subset (mem_of_head? hpa2)
      cases hasks : b.asks with
      | nil =>
        rw [hasks] at hmem
        cases hmem
      | cons hd tl =>
        have h1 : pb < hd.1 := hnc pb hd.1 hpb
          (by rw [Book.bestAsk?, hasks]; rfl)
        have hh : (hbKeys b.asks).head? = some hd.1 := by
          rw [hasks]
          rfl
        rcases sorted_head_bound hsa hh hmem with heq | hlt
        · rw [heq]
          exact h1
        · have h2 : hd.1 < pa := by simpa [askBefore] using hlt
          omega

/-- `LimitBook::replace` preserves the invariant bundle for a non-sentinel
replacement price. -/
theorem replace_BookInv (b : Book) (id : Nat) (np : Int) (nq : Nat)
    (now : Nat) (hp : np ≠ INVALID_PRICE) (hinv : BookInv b) :
    BookInv (b.replace id np nq now).2.1 := by
  rw [Book.replace]
  cases hloc : idxFind b.order_index id with
  | none => exact hinv
  | some loc =>
    obtain ⟨side, price⟩ := loc
    cases side
    · dsimp only
      cases hfound : (hbFind b.bids price).bind
        (fun l => l.find_order id) with
      | none => exact hinv
      | some book_order =>
        dsimp only
        by_cases hc : (b.cancel id).1 = false
        · rw [if_pos hc]
          exact cancel_BookInv b id hinv
        · rw [if_neg hc]
          exact add_BookInv _ _ _ hp (cancel_BookInv b id hinv)
    · dsimp only
      cases hfound : (hbFind b.asks price).bind
        (fun l => l.find_order id) with
      | none => exact hinv
      | some book_order =>
        dsimp only
        by_cases hc : (b.cancel id).1 = false
        · rw [if_pos hc]
          exact cancel_BookInv b id hinv
        · rw [if_neg hc]
          exact add_BookInv _ _ _ hp (cancel_BookInv b id hinv)

/-- Every sentinel-free reachable book satisfies the invariant bundle. -/
theorem reachableValid_BookInv (b : Book) (h : ReachableValid b) :
    BookInv b := by
  induction h with
  | empty => decide
  | add b o now hp hr ih => exact add_BookInv b o now hp ih
  | cancel b id hr ih => exact cancel_BookInv b id ih
  | replace b id np nq now hp hr ih =>
    exact replace_BookInv b id np nq now hp ih

/-- **C2, counterexample.**  The unrestricted claim is false: a limit sell
at the sentinel price `-1` rests on the ask side (nothing crosses an empty
book), and a subsequent limit buy at `5` sees `best_ask = INVALID_PRICE`
— `would_cross` conflates the resting `-1` level with an empty side — so
the buy rests without matching and the book is left crossed
(`best_bid = 5 > best_ask = -1`) at a quiescent point. -/
theorem C2_crossed_book_counterexample :
    ∃ b : Book, Reachable b ∧ ¬ NotCrossed b :=
  ⟨((emptyBook.add ⟨1, Side.Sell, -1, 5, 0, OrderType.Limit⟩ 0).2.1.add
      ⟨2, Side.Buy, 5, 5, 1, OrderType.Limit⟩ 1).2.1,
    Reachable.add _ _ _ (Reachable.add _ _ _ Reachable.empty),
    by decide⟩

/-- **C2.**  Amended: on every book reachable from the empty book through
submits and replaces whose limit prices avoid the `INVALID_PRICE` sentinel
`-1` (and arbitrary cancels), whenever both sides are non-empty the best
bid is strictly below the best ask — no public operation leaves the book
crossed at a quiescent point.  The unrestricted claim is false (see the
counterexample): a resting level at the sentinel price defeats the
`would_cross` test. -/
theorem C2_no_crossed_book (b : Book) (h : ReachableValid b) :
    NotCrossed b :=
  (reachableValid_BookInv b h).2.2.2.2.2

/-- **C2, witness.**  Sells rest at 10000 and 10100; a buy at 10050 lifts
the 10000 level and rests its residual, leaving best bid 10050 below best
ask 10100. -/
theorem C2_witness :
    NotCrossed (((emptyBook.add
        ⟨1, Side.Sell, 10000, 5, 0, OrderType.Limit⟩ 0).2.1.add
        ⟨2, Side.Sell, 10100, 5, 1, OrderType.Limit⟩ 1).2.1.add
        ⟨3, Side.Buy, 10050, 7, 2, OrderType.Limit⟩ 2).2.1 :=
  C2_no_crossed_book _
    (ReachableValid.add _ _ _ (by decide)
      (ReachableValid.add _ _ _ (by decide)
        (ReachableValid.add _ _ _ (by decide) ReachableValid.empty)))

/-- **C5.**  FIFO priority within a price level: if the resting ids on the
side an aggressor matches against are distinct and some level `L` at price
`p` holds a slot `boA` queued ahead of a slot `boC`, then whenever the
matching call trades against the later slot `boC` at all, the emitted trade
list splits into a prefix `tr1` that credits the earlier slot `boA` with
exactly its full remaining quantity and never touches `boC`, followed by a
suffix `tr2` that never touches `boA` again: the earlier-inserted order is
completely filled before the later one trades. -/
theorem C5_fifo_priority (b : Book) (o : Order) (now : Nat)
    (hnodup : (restingIds (oppositeHalf b o.side)).Nodup)
    (p : Int) (L : BookLevel) (pre mid post : List BookOrder)
    (boA boC : BookOrder)
    (hmem : (p, L) ∈ oppositeHalf b o.side)
    (horders : L.orders = pre ++ boA :: (mid ++ boC :: post))
    (hC : ∃ t ∈ (b.match_order o now []).2.2,
      t.maker_id = boC.order.id) :
    ∃ tr1 tr2,
      (b.match_order o now []).2.2 = tr1 ++ tr2 ∧
      sumQtyOf boA.order.id tr1 = boA.remaining_qty ∧
      (∀ t ∈ tr1, t.maker_id ≠ boC.order.id) ∧
      (∀ t ∈ tr2, t.maker_id ≠ boA.order.id) := by
  cases hs : o.side
  · simp only [oppositeHalf, hs] at hnodup hmem
    simp only [Book.match_order, hs] at hC ⊢
    exact matchLoop_fifo (o.qty + countOrders b.asks + 1) o b.asks
      b.order_index now [] hnodup p L pre mid post boA boC hmem horders hC
  · simp only [oppositeHalf, hs] at hnodup hmem
    simp only [Book.match_order, hs] at hC ⊢
    exact matchLoop_fifo (o.qty + countOrders b.bids + 1) o b.bids
      b.order_index now [] hnodup p L pre mid post boA boC hmem horders hC

/-- **C5, witness.**  Two sells rest at 10000 (id 1 first, id 2 second); a
buy for 5 trades with id 2, so the trade list splits with id 1 fully
filled (quantity 2) before id 2 trades. -/
theorem C5_witness :
    ∃ tr1 tr2,
      (((emptyBook.add ⟨1, Side.Sell, 10000, 2, 0, OrderType.Limit⟩ 0).2.1.add
          ⟨2, Side.Sell, 10000, 3, 1, OrderType.Limit⟩ 1).2.1.match_order
        ⟨3, Side.Buy, 10000, 5, 2, OrderType.Limit⟩ 2 []).2.2 = tr1 ++ tr2 ∧
      sumQtyOf 1 tr1 = 2 ∧
      (∀ t ∈ tr1, t.maker_id ≠ 2) ∧
      (∀ t ∈ tr2, t.maker_id ≠ 1) :=
  C5_fifo_priority
    ((emptyBook.add ⟨1, Side.Sell, 10000, 2, 0, OrderType.Limit⟩ 0).2.1.add
      ⟨2, Side.Sell, 10000, 3, 1, OrderType.Limit⟩ 1).2.1
    ⟨3, Side.Buy, 10000, 5, 2, OrderType.Limit⟩ 2 (by decide)
    10000 ⟨[⟨⟨1, Side.Sell, 10000, 2, 0, OrderType.Limit⟩, 2⟩,
            ⟨⟨2, Side.Sell, 10000, 3, 1, OrderType.Limit⟩, 3⟩], 5⟩
    [] [] [] ⟨⟨1, Side.Sell, 10000, 2, 0, OrderType.Limit⟩, 2⟩
    ⟨⟨2, Side.Sell, 10000, 3, 1, OrderType.Limit⟩, 3⟩
    (by decide) rfl (by decide)

end LOB
